import Mathlib

/-!
Verification of `pymc/logprob/mixture.py`.

This file gives a shallow embedding of the mixture-logprob rewriting module:

* `expand_indices` (conversion of basic/advanced indices into a single
  broadcast advanced-index set), modelled at the level of shapes;
* the `MixtureRV` placeholder logprob (`logprob_MixtureRV`), split into its
  vector/array regime and its scalar regime, modelled at the level of the
  values the synthesized graph computes;
* the matchers `find_measurable_index_mixture` and
  `find_measurable_switch_mixture`;
* the switch / if-else logprob graphs and the `split_valued_ifelse` rewrite.

External collaborators (the tensor library's broadcasting, `_logprob_helper`
recursion, constant folding, topological ordering) are modelled as explicit
parameters or as their documented shape-level semantics.
-/

namespace Mixture

/-! ## NumPy-style broadcasting of shapes.

Shapes are `List Nat` (leftmost = outermost dimension).  Broadcasting aligns
shapes at their rightmost dimension; a dimension of size 1 broadcasts against
anything.  `bcastRev` works on reversed shapes (index 0 = innermost), which is
the convenient form for proofs; `broadcastCommon` is the common shape of a
whole list of shapes, `none` when they are not mutually broadcastable.  This
is the shape semantics of `pt.broadcast_arrays`, an external primitive of the
source module. -/

/-- Broadcast two dimension sizes: `1` yields to the other, otherwise they
must agree. -/
def bdim (a b : Nat) : Option Nat :=
  if a = 1 then some b else if b = 1 then some a else if a = b then some a else none

/-- Broadcast two reversed shapes dimension by dimension. -/
def bcastRev : List Nat → List Nat → Option (List Nat)
  | [], bs => some bs
  | a :: as_, [] => some (a :: as_)
  | a :: as_, b :: bs =>
    match bdim a b, bcastRev as_ bs with
    | some d, some rest => some (d :: rest)
    | _, _ => none

/-- Common broadcast shape (reversed form) of a list of reversed shapes. -/
def broadcastCommonR (l : List (List Nat)) : Option (List Nat) :=
  l.foldl (fun acc s => acc.bind (fun a => bcastRev a s)) (some [])

/-- Common broadcast shape of a list of shapes (standard orientation). -/
def broadcastCommon (l : List (List Nat)) : Option (List Nat) :=
  (broadcastCommonR (l.map List.reverse)).map List.reverse

/-- `s` fits under the dimension assignment `γ` (on reversed shapes): every
dimension of `s` is either 1 or the dimension `γ` prescribes at that
(right-aligned) position. -/
def SubR (γ : Nat → Nat) (s : List Nat) : Prop :=
  ∀ i, s.getD i 1 = 1 ∨ s.getD i 1 = γ i

/-- `s` refines into `t` (on reversed shapes): every non-1 dimension of `s`
appears unchanged in `t`. -/
def RefR (s t : List Nat) : Prop :=
  ∀ i, s.getD i 1 = 1 ∨ s.getD i 1 = t.getD i 1

theorem RefR.trans {s t u : List Nat} (h1 : RefR s t) (h2 : RefR t u) : RefR s u := by
  intro i
  rcases h1 i with h | h
  · exact Or.inl h
  · rcases h2 i with h' | h'
    · exact Or.inl (h.trans h')
    · exact Or.inr (h.trans h')

theorem bdim_eq {a b d : Nat} (h : bdim a b = some d) :
    d = (if a = 1 then b else a) ∧ (a = 1 ∨ a = d) ∧ (b = 1 ∨ b = d) := by
  unfold bdim at h
  by_cases ha : a = 1 <;> by_cases hb : b = 1 <;> simp [ha, hb] at h <;> try subst h
  · simp [ha, hb]
  · simp [ha, hb]
  · simp [ha, hb]
  · by_cases hab : a = b
    · simp [hab] at h; simp [ha, hb, hab, h]
    · simp [hab] at h

theorem bdim_some_of_subR {γ : Nat → Nat} {a b : Nat}
    (ha : a = 1 ∨ a = γ 0) (hb : b = 1 ∨ b = γ 0) :
    ∃ d, bdim a b = some d ∧ (d = 1 ∨ d = γ 0) := by
  unfold bdim
  by_cases h1 : a = 1
  · exact ⟨b, by simp [h1], hb⟩
  · by_cases h2 : b = 1
    · exact ⟨a, by simp [h1, h2], ha⟩
    · rcases ha with h | h
      · exact absurd h h1
      · rcases hb with h' | h'
        · exact absurd h' h2
        · refine ⟨a, by simp [h1, h2, h.trans h'.symm], Or.inr h⟩

theorem getD_nil {α : Type _} (i : Nat) (d : α) : ([] : List α).getD i d = d := by
  simp [List.getD]

theorem getD_cons_zero {α : Type _} (a : α) (l : List α) (d : α) : (a :: l).getD 0 d = a := rfl

theorem getD_cons_succ {α : Type _} (a : α) (l : List α) (i : Nat) (d : α) :
    (a :: l).getD (i + 1) d = l.getD i d := rfl

/-- `SubR` restated after removing the innermost dimension. -/
theorem SubR.tail {γ : Nat → Nat} {a : Nat} {s : List Nat}
    (h : SubR γ (a :: s)) : SubR (fun i => γ (i + 1)) s := by
  intro i
  exact h (i + 1)

/-- If both arguments fit under `γ` then `bcastRev` succeeds and its result
still fits under `γ` and has the maximum length. -/
theorem bcastRev_of_subR {γ : Nat → Nat} :
    ∀ (a b : List Nat), SubR γ a → SubR γ b →
      ∃ c, bcastRev a b = some c ∧ SubR γ c ∧ c.length = max a.length b.length
  | [], bs, _, hb => ⟨bs, rfl, hb, by simp⟩
  | a :: as_, [], ha, _ => ⟨a :: as_, rfl, ha, by simp⟩
  | a :: as_, b :: bs, ha, hb => by
    have h0a := ha 0
    have h0b := hb 0
    simp only [getD_cons_zero] at h0a h0b
    obtain ⟨d, hd, hdsub⟩ := bdim_some_of_subR h0a h0b
    obtain ⟨c, hc, hcsub, hclen⟩ := bcastRev_of_subR as_ bs ha.tail hb.tail
    refine ⟨d :: c, ?_, ?_, ?_⟩
    · simp [bcastRev, hd, hc]
    · intro i
      cases i with
      | zero => simpa using hdsub
      | succ i => simpa [getD_cons_succ] using hcsub i
    · simp [hclen, Nat.succ_max_succ]

/-- Both arguments of a successful `bcastRev` refine into its result. -/
theorem bcastRev_refines {a b c : List Nat} (h : bcastRev a b = some c) :
    RefR a c ∧ RefR b c := by
  induction a generalizing b c with
  | nil =>
    simp only [bcastRev] at h
    cases h
    exact ⟨fun i => Or.inl (getD_nil i 1), fun i => Or.inr rfl⟩
  | cons x xs ih =>
    cases b with
    | nil =>
      simp only [bcastRev] at h
      cases h
      exact ⟨fun i => Or.inr rfl, fun i => Or.inl (getD_nil i 1)⟩
    | cons y ys =>
      simp only [bcastRev] at h
      cases hd : bdim x y with
      | none => simp [hd] at h
      | some d =>
        cases hr : bcastRev xs ys with
        | none => simp [hd, hr] at h
        | some c' =>
          simp [hd, hr] at h
          subst h
          obtain ⟨ha, hb⟩ := ih hr
          obtain ⟨_, hx, hy⟩ := bdim_eq hd
          constructor
          · intro i
            cases i with
            | zero => simpa using hx
            | succ i => simpa [getD_cons_succ] using ha i
          · intro i
            cases i with
            | zero => simpa using hy
            | succ i => simpa [getD_cons_succ] using hb i

/-- Folding `bcastRev` over a list of shapes that all fit under `γ` succeeds,
the result fits under `γ`, and its length is the maximum length. -/
theorem broadcastCommonR_of_subR {γ : Nat → Nat} (l : List (List Nat))
    (h : ∀ s ∈ l, SubR γ s) :
    ∃ c, broadcastCommonR l = some c ∧ SubR γ c ∧
      c.length = l.foldl (fun m s => max m s.length) 0 := by
  suffices H : ∀ (acc : List Nat), SubR γ acc →
      ∃ c, l.foldl (fun acc s => acc.bind (fun a => bcastRev a s)) (some acc) = some c ∧
        SubR γ c ∧ c.length = l.foldl (fun m s => max m s.length) acc.length by
    exact H [] (fun i => Or.inl (getD_nil i 1))
  induction l with
  | nil => exact fun acc hacc => ⟨acc, rfl, hacc, rfl⟩
  | cons s rest ih =>
    intro acc hacc
    have hs : SubR γ s := h s (by simp)
    obtain ⟨c, hc, hcsub, hclen⟩ := bcastRev_of_subR acc s hacc hs
    obtain ⟨c', hc', hc'sub, hc'len⟩ := ih (fun t ht => h t (by simp [ht])) c hcsub
    refine ⟨c', ?_, hc'sub, ?_⟩
    · simpa [hc] using hc'
    · rw [hc'len, hclen]
      simp [Nat.max_comm]

theorem bcfold_none (l : List (List Nat)) :
    l.foldl (fun acc s => acc.bind (fun a => bcastRev a s)) none = none := by
  induction l with
  | nil => rfl
  | cons s rest ih => simpa using ih

theorem bcfold_refines :
    ∀ (l : List (List Nat)) (acc c : List Nat),
      l.foldl (fun acc s => acc.bind (fun a => bcastRev a s)) (some acc) = some c →
      RefR acc c ∧ ∀ s ∈ l, RefR s c
  | [], acc, c, h => by
    simp at h
    subst h
    exact ⟨fun i => Or.inr rfl, by simp⟩
  | s :: rest, acc, c, h => by
    simp only [List.foldl_cons, Option.some_bind] at h
    cases hb : bcastRev acc s with
    | none =>
      rw [hb, bcfold_none] at h
      cases h
    | some c1 =>
      rw [hb] at h
      obtain ⟨hacc1, hrest⟩ := bcfold_refines rest c1 c h
      obtain ⟨ha, hs⟩ := bcastRev_refines hb
      refine ⟨ha.trans hacc1, ?_⟩
      intro t ht
      rcases List.mem_cons.mp ht with rfl | ht'
      · exact hs.trans hacc1
      · exact hrest t ht'

/-- Every member of a successful common broadcast refines into the result. -/
theorem broadcastCommonR_refines {l : List (List Nat)} {c : List Nat}
    (h : broadcastCommonR l = some c) : ∀ s ∈ l, RefR s c :=
  (bcfold_refines l [] c h).2

/-! ## `expand_indices` (shape level)

An index is a `newaxis` (`None`), a slice (three optional integer bounds), or
an array-valued index of which only the shape is relevant here (its dtype
plays no role inside `expand_indices`).  A scalar index is an array of rank
0, exactly as in the source where `is_basic_idx` holds only of slices and
newaxes.  `expand_indices` is translated from the source with each tensor
replaced by its shape: `idx[(None,)*p][(Ellipsis,) + (None,)*q]` prepends `p`
and appends `q` broadcast dimensions to the shape, `pt.arange` of a
canonicalized slice has the slice's length as its only dimension, and
`pt.broadcast_arrays` is `broadcastCommon` above. -/

inductive PIdx where
  | newaxis : PIdx
  | slice (start stop step : Option Int) : PIdx
  | arr (shape : List Nat) : PIdx
deriving DecidableEq, Repr

/-- `is_newaxis` from the source. -/
def is_newaxis : PIdx → Bool
  | .newaxis => true
  | _ => false

/-- `is_basic_idx`: slices and newaxes are basic, array indices (of any rank,
including rank-0 scalars) are advanced. -/
def is_basic_idx : PIdx → Bool
  | .newaxis => true
  | .slice _ _ _ => true
  | .arr _ => false

/-- `getattr(idx, "ndim", 0)`. -/
def pidxNdim : PIdx → Nat
  | .arr a => a.length
  | _ => 0

/-- Number of indices that are not newaxes
(`sum(1 for idx in indices if not is_newaxis(idx))`). -/
def nNonNewaxis (indices : List PIdx) : Nat :=
  indices.countP (fun i => !is_newaxis i)

/-- `full_indices`: the given indices with missing trailing dimensions filled
by full slices. -/
def fullIndices (indices : List PIdx) (shape : List Nat) : List PIdx :=
  indices ++ List.replicate (shape.length - nNonNewaxis indices) (PIdx.slice none none none)

/-- `index_types = [is_basic_idx(idx) for idx in full_indices]`. -/
def indexTypes (full : List PIdx) : List Bool :=
  full.map is_basic_idx

/-- `list.index(p, start)` (restricted to `start = 0`): index of the first
element satisfying `p`, `none` when there is none (where Python raises
`ValueError`). -/
def firstIdx (p : α → Bool) : List α → Option Nat
  | [] => none
  | x :: rest => if p x then some 0 else (firstIdx p rest).map (· + 1)

/-- The `moved_subspace` detection: an advanced index, then a basic index
after it, then another advanced index after that (`index_types.index(False)`,
`index_types.index(True, first_adv_idx)`, `index_types.index(False, ...)`
all succeeding). -/
def movedSubspace (ts : List Bool) : Bool :=
  match firstIdx (fun b => !b) ts with
  | none => false
  | some i =>
    match firstIdx (fun b => b) (ts.drop (i + 1)) with
    | none => false
    | some j => (ts.drop (i + 1 + (j + 1))).any (fun b => !b)

/-- `first_adv_idx`, defaulting to `len(shape)` when there is no advanced
index (the `try` block assigns it before any exception can fire). -/
def firstAdvIdx (ts : List Bool) (dflt : Nat) : Nat :=
  match firstIdx (fun b => !b) ts with
  | none => dflt
  | some i => i

/-- `n_basic_indices = sum(index_types)`. -/
def nBasicIndices (ts : List Bool) : Nat :=
  ts.countP id

/-- `n_subspace_dims`: maximum rank among the advanced indices, default 0. -/
def nSubspaceDims (full : List PIdx) : Nat :=
  (full.filter (fun i => !is_basic_idx i)).foldl (fun m i => max m (pidxNdim i)) 0

/-- Length of `range(start, stop, step)` over the integers. -/
def rangeLen (start stop step : Int) : Nat :=
  if step > 0 then ((stop - start + step - 1) / step).toNat
  else if step < 0 then ((start - stop + (-step) - 1) / (-step)).toNat
  else 0

/-- Python's `slice.indices(n)` clamping followed by the range length: the
number of elements selected by the canonical form of the slice against a
dimension of size `n`.  This is the length of the `pt.arange` that
`get_canonical_form_slice` + `pt.arange` produce for a constant slice. -/
def sliceLen (start stop step : Option Int) (n : Nat) : Nat :=
  let nz : Int := n
  let st : Int := step.getD 1
  if st = 0 then 0
  else if st > 0 then
    let a : Int := match start with
      | none => 0
      | some v => if v < 0 then max (nz + v) 0 else min v nz
    let b : Int := match stop with
      | none => nz
      | some v => if v < 0 then max (nz + v) 0 else min v nz
    rangeLen a b st
  else
    let a : Int := match start with
      | none => nz - 1
      | some v => if v < 0 then max (nz + v) (-1) else min v (nz - 1)
    let b : Int := match stop with
      | none => -1
      | some v => if v < 0 then max (nz + v) (-1) else min v (nz - 1)
    rangeLen a b st

/-- Shape of the expanded form of an advanced index with array shape `a`:
`idx[(Ellipsis,) + (None,)*n_basic]` in the moved-subspace case, otherwise
`idx[(None,)*p][(Ellipsis,) + (None,)*(n_basic - p)]` where `p` is the number
of preceding basic indices. -/
def expandOneAdv (moved : Bool) (nBasic p : Nat) (a : List Nat) : List Nat :=
  if moved then a ++ List.replicate nBasic 1
  else List.replicate p 1 ++ a ++ List.replicate (nBasic - p) 1

/-- Shape of the expanded form of a basic (slice) index whose arange has
length `len`, at overall position `d` with `p` preceding basic indices. -/
def expandOneBasic (moved : Bool) (nSub nBasic nOut fAdv d p : Nat) (len : Nat) : List Nat :=
  if moved then
    List.replicate (nSub + p) 1 ++ [len] ++ List.replicate (nBasic - p - 1) 1
  else
    let nPrecedingDims := (if fAdv < d then nSub else 0) + p
    List.replicate nPrecedingDims 1 ++ [len] ++ List.replicate (nOut - nPrecedingDims - 1) 1

/-- The main loop of `expand_indices`: walk the full index list, popping one
entry of `shape_copy` for every non-newaxis index, tracking the position `d`
and the number `p` of preceding basic indices, and emit one expanded shape
per non-newaxis index. -/
def expandLoop (moved : Bool) (nSub nBasic nOut fAdv : Nat) :
    List PIdx → List Nat → Nat → Nat → List (List Nat)
  | [], _, _, _ => []
  | .newaxis :: rest, sc, d, p =>
    expandLoop moved nSub nBasic nOut fAdv rest sc (d + 1) (p + 1)
  | .arr a :: rest, sc, d, p =>
    expandOneAdv moved nBasic p a ::
      expandLoop moved nSub nBasic nOut fAdv rest sc.tail (d + 1) p
  | .slice st sp se :: rest, sc, d, p =>
    expandOneBasic moved nSub nBasic nOut fAdv d p (sliceLen st sp se (sc.headD 1)) ::
      expandLoop moved nSub nBasic nOut fAdv rest sc.tail (d + 1) (p + 1)

/-- The expanded (pre-broadcast) index shapes of `expand_indices`. -/
def expandIndicesRaw (indices : List PIdx) (shape : List Nat) : List (List Nat) :=
  let full := fullIndices indices shape
  let ts := indexTypes full
  expandLoop (movedSubspace ts) (nSubspaceDims full) (nBasicIndices ts)
    (nSubspaceDims full + nBasicIndices ts) (firstAdvIdx ts shape.length) full shape 0 0

/-- `expand_indices` itself: the expanded index shapes, broadcast together by
`pt.broadcast_arrays` so that every returned index has the common shape.
`none` when the expanded indices are not mutually broadcastable (where the
source would raise from inside `pt.broadcast_arrays`). -/
def expand_indices (indices : List PIdx) (shape : List Nat) : Option (List (List Nat)) :=
  (broadcastCommon (expandIndicesRaw indices shape)).map
    (fun c => (expandIndicesRaw indices shape).map (fun _ => c))

/-- Shapes of the advanced (array) indices. -/
def advShapes (full : List PIdx) : List (List Nat) :=
  full.filterMap (fun i => match i with | .arr a => some a | _ => none)

/-! ### Proof infrastructure for the `expand_indices` contract (claim C3).

`basicDims` records, per basic index (in order, newaxes included), the
dimension that index contributes to the expanded space (its arange length,
or 1 for a newaxis).  `gammaF` is the dimension assignment of the predicted
common broadcast shape, as a function of the right-aligned position. -/

/-- The output dimension contributed by each basic index, in order (newaxes
contribute a broadcast 1; slices their arange length; advanced indices
nothing), popping the shape exactly as the `expand_indices` loop does. -/
def basicDims : List PIdx → List Nat → List Nat
  | [], _ => []
  | .newaxis :: rest, sc => 1 :: basicDims rest sc
  | .slice st sp se :: rest, sc => sliceLen st sp se (sc.headD 1) :: basicDims rest sc.tail
  | .arr _ :: rest, sc => basicDims rest sc.tail

/-- Dimension of the predicted common broadcast shape at right-aligned
position `i`: in the moved-subspace layout the basic dimensions occupy the
rightmost `nB` positions (ordinal `p` at right-position `nB - 1 - p`) with
the advanced subspace above them; otherwise the basic indices before the
advanced group sit above the subspace and the rest below it. -/
def gammaF (moved : Bool) (nSub nB nOut pStar : Nat) (bd advC : List Nat) (i : Nat) : Nat :=
  if moved then
    if i < nB then bd.getD (nB - 1 - i) 1
    else advC.reverse.getD (i - nB) 1
  else
    if i < nB - pStar then bd.getD (nB - 1 - i) 1
    else if i < nB - pStar + nSub then advC.reverse.getD (i - (nB - pStar)) 1
    else bd.getD (nOut - 1 - i) 1

theorem getD_replicate_one (q i : Nat) : (List.replicate q (1 : Nat)).getD i 1 = 1 := by
  rcases Nat.lt_or_ge i q with h | h
  · rw [List.getD_eq_getElem _ _ (by simpa using h)]
    simp
  · exact List.getD_eq_default _ _ (by simpa using h)

/-- `getD` through a shape of the form `1…1 ++ t ++ 1…1`. -/
theorem sandwich_getD (q r i : Nat) (t : List Nat) :
    (List.replicate q 1 ++ (t ++ List.replicate r 1)).getD i 1 =
      if q ≤ i ∧ i - q < t.length then t.getD (i - q) 1 else 1 := by
  rcases Nat.lt_or_ge i q with h | h
  · rw [List.getD_append _ _ _ _ (by simpa using h), getD_replicate_one]
    simp [Nat.not_le_of_lt h]
  · rw [List.getD_append_right _ _ _ _ (by simpa using h)]
    simp only [List.length_replicate]
    rcases Nat.lt_or_ge (i - q) t.length with h2 | h2
    · rw [List.getD_append _ _ _ _ h2]
      simp [h, h2]
    · rw [List.getD_append_right _ _ _ _ h2, getD_replicate_one]
      simp [h, Nat.not_lt_of_ge h2]

theorem reverse_sandwich (a b : Nat) (t : List Nat) :
    (List.replicate a (1 : Nat) ++ t ++ List.replicate b 1).reverse =
      List.replicate b 1 ++ (t.reverse ++ List.replicate a 1) := by
  simp [List.reverse_append]

/-- `getD` on a reversed list, inside the range. -/
theorem getD_reverse_of_lt {l : List Nat} {i : Nat} (h : i < l.length) (d : Nat) :
    l.reverse.getD i d = l.getD (l.length - 1 - i) d := by
  rw [List.getD_eq_getElem _ _ (by simpa using h),
    List.getD_eq_getElem _ _ (by omega)]
  rw [List.getElem_reverse]

theorem countP_take_le (l : List α) (p : α → Bool) (n : Nat) :
    (l.take n).countP p ≤ l.countP p := by
  conv_rhs => rw [← List.take_append_drop n l]
  rw [List.countP_append]
  omega

theorem countP_take_mono (l : List α) (p : α → Bool) {m n : Nat} (h : m ≤ n) :
    (l.take m).countP p ≤ (l.take n).countP p := by
  have : (l.take n).take m = l.take m := by
    rw [List.take_take, Nat.min_eq_left h]
  rw [← this]
  exact countP_take_le _ _ _

theorem le_foldl_max (f : α → Nat) :
    ∀ (l : List α) (z : Nat), z ≤ l.foldl (fun m y => max m (f y)) z
  | [], _ => Nat.le_refl _
  | y :: rest, z =>
    Nat.le_trans (Nat.le_max_left _ (f y)) (le_foldl_max f rest (max z (f y)))

theorem foldl_max_ge (f : α → Nat) :
    ∀ (l : List α) (z : Nat) (x : α), x ∈ l →
      f x ≤ l.foldl (fun m y => max m (f y)) z
  | [], _, _, hx => absurd hx (List.not_mem_nil _)
  | y :: rest, z, x, hx => by
    rcases List.mem_cons.mp hx with rfl | hx'
    · exact Nat.le_trans (Nat.le_max_right z (f x)) (le_foldl_max f rest _)
    · exact foldl_max_ge f rest _ x hx'

theorem foldl_max_attained (f : α → Nat) :
    ∀ (l : List α) (z : Nat),
      l.foldl (fun m y => max m (f y)) z = z ∨
        ∃ x ∈ l, l.foldl (fun m y => max m (f y)) z = f x
  | [], z => Or.inl rfl
  | y :: rest, z => by
    simp only [List.foldl_cons]
    rcases foldl_max_attained f rest (max z (f y)) with h | ⟨x, hx, hfx⟩
    · rcases Nat.le_total z (f y) with hle | hle
      · rw [h, Nat.max_eq_right hle]
        exact Or.inr ⟨y, by simp, rfl⟩
      · rw [h, Nat.max_eq_left hle]
        exact Or.inl rfl
    · exact Or.inr ⟨x, by simp [hx], hfx⟩

theorem foldl_max_le (f : α → Nat) (M : Nat) :
    ∀ (l : List α) (z : Nat), z ≤ M → (∀ x ∈ l, f x ≤ M) →
      l.foldl (fun m y => max m (f y)) z ≤ M
  | [], _, hz, _ => hz
  | y :: rest, z, hz, h =>
    foldl_max_le f M rest (max z (f y)) (Nat.max_le.mpr ⟨hz, h y (by simp)⟩)
      (fun x hx => h x (by simp [hx]))

/-- A shape that is 1 everywhere except one slot fits under `γ` as soon as
`γ` carries its value at the right-aligned position of that slot. -/
theorem subR_oneHot {γ : Nat → Nat} (slot total L : Nat) (hs : slot < total)
    (hγ : γ (total - 1 - slot) = L) :
    SubR γ (List.replicate slot 1 ++ [L] ++ List.replicate (total - slot - 1) 1).reverse := by
  intro i
  rw [reverse_sandwich, List.reverse_singleton, sandwich_getD]
  split
  case isTrue h =>
    obtain ⟨h1, h2⟩ := h
    simp only [List.length_singleton] at h2
    have hi : i = total - slot - 1 := by omega
    subst hi
    right
    have h0 : total - slot - 1 - (total - slot - 1) = 0 := by omega
    have h3 : γ (total - slot - 1) = L := by
      rw [← hγ]
      congr 1
      omega
    rw [h0, h3]
    rfl
  case isFalse h => exact Or.inl rfl

/-- A shape of the form `1…1 ++ a ++ 1…1` fits under `γ` as soon as the
block `a` fits under `γ` shifted by the prefix length. -/
theorem subR_block {γ : Nat → Nat} (q trail : Nat) (ra : List Nat)
    (h : ∀ j, ra.getD j 1 = 1 ∨ ra.getD j 1 = γ (q + j)) :
    SubR γ (List.replicate q 1 ++ (ra ++ List.replicate trail 1)) := by
  intro i
  rw [sandwich_getD]
  split
  case isTrue hc =>
    obtain ⟨h1, _⟩ := hc
    rcases h (i - q) with h' | h'
    · exact Or.inl h'
    · right
      rw [h']
      congr 1
      omega
  case isFalse => exact Or.inl rfl

theorem gammaF_moved_basic (nSub nB nOut pStar p : Nat) (bd advC : List Nat)
    (hp : p < nB) :
    gammaF true nSub nB nOut pStar bd advC (nB - 1 - p) = bd.getD p 1 := by
  unfold gammaF
  rw [if_pos rfl, if_pos (by omega)]
  congr 1
  omega

theorem gammaF_moved_adv (nSub nB nOut pStar j : Nat) (bd advC : List Nat) :
    gammaF true nSub nB nOut pStar bd advC (nB + j) = advC.reverse.getD j 1 := by
  unfold gammaF
  rw [if_pos rfl, if_neg (by omega)]
  congr 1
  omega

theorem gammaF_post_basic (nSub nB nOut pStar p : Nat) (bd advC : List Nat)
    (hp : p < nB) (hps : pStar ≤ p) :
    gammaF false nSub nB nOut pStar bd advC (nB - 1 - p) = bd.getD p 1 := by
  unfold gammaF
  rw [if_neg (by simp), if_pos (by omega)]
  congr 1
  omega

theorem gammaF_pre_basic (nSub nB nOut pStar p : Nat) (bd advC : List Nat)
    (hp : p < pStar) (hpn : pStar ≤ nB) (hout : nOut = nSub + nB) :
    gammaF false nSub nB nOut pStar bd advC (nOut - 1 - p) = bd.getD p 1 := by
  unfold gammaF
  rw [if_neg (by simp), if_neg (by omega), if_neg (by omega)]
  congr 1
  omega

theorem gammaF_noadv_basic (nB nOut pStar p : Nat) (bd advC : List Nat)
    (hp : p < nB) (hout : nOut = nB) :
    gammaF false 0 nB nOut pStar bd advC (nB - 1 - p) = bd.getD p 1 := by
  unfold gammaF
  rw [if_neg (by simp)]
  by_cases h1 : nB - 1 - p < nB - pStar
  · rw [if_pos h1]
    congr 1
    omega
  · rw [if_neg h1, if_neg (by omega)]
    congr 1
    omega

theorem gammaF_nonmoved_adv (nSub nB nOut pStar j : Nat) (bd advC : List Nat)
    (hj : j < nSub) :
    gammaF false nSub nB nOut pStar bd advC (nB - pStar + j) = advC.reverse.getD j 1 := by
  unfold gammaF
  rw [if_neg (by simp), if_neg (by omega), if_pos (by omega)]
  congr 1
  omega

theorem length_expandOneBasic (moved : Bool) (nSub nB nOut fAdv d p L : Nat)
    (hp : p < nB) (hout : nOut = nSub + nB) :
    (expandOneBasic moved nSub nB nOut fAdv d p L).length = nOut := by
  unfold expandOneBasic
  cases moved with
  | true => simp; omega
  | false =>
    simp only [Bool.false_eq_true, if_false, List.length_append, List.length_replicate,
      List.length_singleton]
    split <;> omega

theorem length_expandOneAdv (moved : Bool) (nB p : Nat) (a : List Nat)
    (hp : p ≤ nB) :
    (expandOneAdv moved nB p a).length = a.length + nB := by
  unfold expandOneAdv
  cases moved with
  | true => simp
  | false => simp; omega

/-! ### Specifications of `firstIdx`, `movedSubspace` and the counting
functions. -/

theorem getD_drop (l : List α) (d : α) : ∀ (s m : Nat), (l.drop s).getD m d = l.getD (s + m) d := by
  induction l with
  | nil => intro s m; simp [List.getD]
  | cons x xs ih =>
    intro s m
    cases s with
    | zero =>
      simp only [List.drop_zero, Nat.zero_add]
    | succ s =>
      rw [List.drop_succ_cons, ih s m,
        show s + 1 + m = (s + m) + 1 from by omega, getD_cons_succ]

theorem getD_of_drop_eq_cons {l : List α} {x : α} {r : List α} {s : Nat} (d : α)
    (h : l.drop s = x :: r) : l.getD s d = x := by
  have := getD_drop l d s 0
  rw [h] at this
  simpa using this.symm

theorem drop_succ_of_drop_eq_cons {l : List α} {x : α} {r : List α} {s : Nat}
    (h : l.drop s = x :: r) : l.drop (s + 1) = r := by
  rw [← List.drop_drop, h]
  rfl

theorem lt_length_of_drop_eq_cons {l : List α} {x : α} {r : List α} {s : Nat}
    (h : l.drop s = x :: r) : s < l.length := by
  by_contra hc
  rw [List.drop_eq_nil_of_le (Nat.le_of_not_lt hc)] at h
  cases h

theorem firstIdx_lt {p : α → Bool} :
    ∀ {l : List α} {i : Nat}, firstIdx p l = some i → i < l.length := by
  intro l
  induction l with
  | nil => intro i h; cases h
  | cons x xs ih =>
    intro i h
    unfold firstIdx at h
    by_cases hx : p x
    · simp [hx] at h
      simp [← h]
    · simp [hx] at h
      obtain ⟨j, hj, rfl⟩ := h
      have := ih hj
      simp
      omega

theorem firstIdx_getD {p : α → Bool} (d : α) :
    ∀ {l : List α} {i : Nat}, firstIdx p l = some i → p (l.getD i d) = true := by
  intro l
  induction l with
  | nil => intro i h; cases h
  | cons x xs ih =>
    intro i h
    unfold firstIdx at h
    by_cases hx : p x
    · simp [hx] at h
      simp [← h, List.getD, hx]
    · simp [hx] at h
      obtain ⟨j, hj, rfl⟩ := h
      simpa [getD_cons_succ] using ih hj

theorem firstIdx_min {p : α → Bool} (d : α) :
    ∀ {l : List α} {i : Nat}, firstIdx p l = some i →
      ∀ j, j < i → p (l.getD j d) = false := by
  intro l
  induction l with
  | nil => intro i h; cases h
  | cons x xs ih =>
    intro i h j hj
    unfold firstIdx at h
    by_cases hx : p x
    · simp [hx] at h
      omega
    · simp [hx] at h
      obtain ⟨k, hk, rfl⟩ := h
      cases j with
      | zero => simpa [List.getD] using Bool.of_not_eq_true hx
      | succ j =>
        rw [getD_cons_succ]
        exact ih hk j (by omega)

theorem firstIdx_none {p : α → Bool} (d : α) :
    ∀ {l : List α}, firstIdx p l = none →
      ∀ j, j < l.length → p (l.getD j d) = false := by
  intro l
  induction l with
  | nil => intro _ j hj; simp at hj
  | cons x xs ih =>
    intro h j hj
    unfold firstIdx at h
    by_cases hx : p x
    · simp [hx] at h
    · simp [hx] at h
      cases j with
      | zero => simpa [List.getD] using Bool.of_not_eq_true hx
      | succ j =>
        rw [getD_cons_succ]
        exact ih h j (by simpa using Nat.lt_of_succ_lt_succ hj)

theorem firstIdx_some_le {p : α → Bool} (d : α) {l : List α} {n : Nat}
    (hn : n < l.length) (hp : p (l.getD n d) = true) :
    ∃ i0, firstIdx p l = some i0 ∧ i0 ≤ n := by
  cases h : firstIdx p l with
  | none =>
    have := firstIdx_none d h n hn
    rw [hp] at this
    cases this
  | some i0 =>
    refine ⟨i0, rfl, ?_⟩
    by_contra hc
    have := firstIdx_min d h n (by omega)
    rw [hp] at this
    cases this

/-- If an advanced index is followed by a basic index which is followed by
another advanced index, `movedSubspace` fires. -/
theorem movedSubspace_of_pattern {ts : List Bool} {i j k : Nat}
    (hij : i < j) (hjk : j < k) (hk : k < ts.length)
    (hi : ts.getD i true = false) (hj : ts.getD j true = true)
    (hkf : ts.getD k true = false) :
    movedSubspace ts = true := by
  obtain ⟨i0, h0, hi0⟩ :=
    firstIdx_some_le (p := fun b => !b) true (l := ts) (n := i) (by omega) (by rw [hi]; rfl)
  obtain ⟨j0, h1, hj0⟩ :=
    firstIdx_some_le (p := fun b => b) true (l := ts.drop (i0 + 1)) (n := j - (i0 + 1))
      (by simp only [List.length_drop]; omega)
      (by rw [getD_drop, show i0 + 1 + (j - (i0 + 1)) = j from by omega, hj])
  unfold movedSubspace
  simp only [h0, h1]
  rw [List.any_eq_true]
  have hkin : k - (i0 + 1 + (j0 + 1)) < (ts.drop (i0 + 1 + (j0 + 1))).length := by
    simp only [List.length_drop]
    omega
  refine ⟨(ts.drop (i0 + 1 + (j0 + 1))).getD (k - (i0 + 1 + (j0 + 1))) true, ?_, ?_⟩
  · rw [List.getD_eq_getElem _ _ hkin]
    exact List.getElem_mem _
  · rw [getD_drop, show i0 + 1 + (j0 + 1) + (k - (i0 + 1 + (j0 + 1))) = k from by omega,
      hkf]
    rfl

theorem indexTypes_getD (full : List PIdx) :
    ∀ (d : Nat), (indexTypes full).getD d true = is_basic_idx (full.getD d PIdx.newaxis) := by
  induction full with
  | nil => intro d; simp [indexTypes, List.getD, is_basic_idx]
  | cons x xs ih =>
    intro d
    cases d with
    | zero => rfl
    | succ d => simpa [indexTypes, getD_cons_succ] using ih d

theorem length_indexTypes (full : List PIdx) :
    (indexTypes full).length = full.length := by
  simp [indexTypes]

theorem nBasicIndices_indexTypes (full : List PIdx) :
    nBasicIndices (indexTypes full) = full.countP is_basic_idx := by
  unfold nBasicIndices indexTypes
  rw [List.countP_map]
  rfl

theorem countP_take_succ (l : List α) (p : α → Bool) {d : Nat} (hd : d < l.length) (dflt : α) :
    (l.take (d + 1)).countP p =
      (l.take d).countP p + (if p (l.getD d dflt) then 1 else 0) := by
  rw [List.take_succ, List.countP_append, List.getElem?_eq_getElem hd]
  rw [List.getD_eq_getElem l dflt hd]
  simp [List.countP_cons]

theorem basicDims_length : ∀ (xs : List PIdx) (sc : List Nat),
    (basicDims xs sc).length = xs.countP is_basic_idx
  | [], _ => rfl
  | .newaxis :: rest, sc => by
    simp [basicDims, basicDims_length rest sc, List.countP_cons, is_basic_idx]
  | .slice st sp se :: rest, sc => by
    simp [basicDims, basicDims_length rest sc.tail, List.countP_cons, is_basic_idx]
  | .arr a :: rest, sc => by
    simp [basicDims, basicDims_length rest sc.tail, List.countP_cons, is_basic_idx]

theorem basicDims_append : ∀ (xs ys : List PIdx) (sc : List Nat),
    basicDims (xs ++ ys) sc = basicDims xs sc ++ basicDims ys (sc.drop (nNonNewaxis xs))
  | [], ys, sc => by simp [basicDims, nNonNewaxis]
  | .newaxis :: rest, ys, sc => by
    have hn : nNonNewaxis (PIdx.newaxis :: rest) = nNonNewaxis rest := by
      simp [nNonNewaxis, List.countP_cons, is_newaxis]
    show 1 :: basicDims (rest ++ ys) sc = (1 :: basicDims rest sc) ++ _
    rw [basicDims_append rest ys sc, hn, List.cons_append]
  | .slice st sp se :: rest, ys, sc => by
    have hn : nNonNewaxis (PIdx.slice st sp se :: rest) = 1 + nNonNewaxis rest := by
      simp [nNonNewaxis, List.countP_cons, is_newaxis]
      omega
    show sliceLen st sp se (sc.headD 1) :: basicDims (rest ++ ys) sc.tail =
      (sliceLen st sp se (sc.headD 1) :: basicDims rest sc.tail) ++ _
    rw [basicDims_append rest ys sc.tail, hn, List.cons_append, ← List.drop_drop,
      List.drop_one]
  | .arr a :: rest, ys, sc => by
    have hn : nNonNewaxis (PIdx.arr a :: rest) = 1 + nNonNewaxis rest := by
      simp [nNonNewaxis, List.countP_cons, is_newaxis]
      omega
    show basicDims (rest ++ ys) sc.tail = basicDims rest sc.tail ++ _
    rw [basicDims_append rest ys sc.tail, hn, ← List.drop_drop, List.drop_one]

theorem nSubspaceDims_eq_zero_of_noadv (full : List PIdx)
    (h : firstIdx (fun b => !b) (indexTypes full) = none) :
    nSubspaceDims full = 0 := by
  unfold nSubspaceDims
  have hall : full.filter (fun i => !is_basic_idx i) = [] := by
    rw [List.filter_eq_nil_iff]
    intro x hx
    obtain ⟨n, hn, rfl⟩ := List.mem_iff_getElem.mp hx
    have h2 : (!((indexTypes full).getD n true)) = false :=
      firstIdx_none true h n (by rw [length_indexTypes]; exact hn)
    rw [indexTypes_getD, List.getD_eq_getElem full PIdx.newaxis hn] at h2
    simp at h2
    simp [h2]
  rw [hall]
  rfl

theorem advShape_le_nSubspaceDims {full : List PIdx} {a : List Nat}
    (h : PIdx.arr a ∈ full) : a.length ≤ nSubspaceDims full := by
  unfold nSubspaceDims
  have hmem : PIdx.arr a ∈ full.filter (fun i => !is_basic_idx i) :=
    List.mem_filter.mpr ⟨h, by simp [is_basic_idx]⟩
  simpa using foldl_max_ge pidxNdim _ 0 _ hmem

theorem mem_advShapes {full : List PIdx} {a : List Nat}
    (h : PIdx.arr a ∈ full) : a ∈ advShapes full := by
  unfold advShapes
  exact List.mem_filterMap.mpr ⟨PIdx.arr a, h, rfl⟩

theorem getD_mem {l : List α} {d : Nat} (h : d < l.length) (dflt : α) :
    l.getD d dflt ∈ l := by
  rw [List.getD_eq_getElem l dflt h]
  exact List.getElem_mem h

theorem subR_prefix_block {γ : Nat → Nat} (q : Nat) (ra : List Nat)
    (h : ∀ j, ra.getD j 1 = 1 ∨ ra.getD j 1 = γ (q + j)) :
    SubR γ (List.replicate q 1 ++ ra) := by
  have := subR_block (γ := γ) q 0 ra h
  simpa using this

theorem expandOneBasic_false_eq (nSub nB nOut fAdv d p L : Nat) :
    expandOneBasic false nSub nB nOut fAdv d p L =
      List.replicate ((if fAdv < d then nSub else 0) + p) 1 ++ [L] ++
        List.replicate (nOut - ((if fAdv < d then nSub else 0) + p) - 1) 1 := rfl

theorem expandOneBasic_true_eq (nSub nB nOut fAdv d p L : Nat) :
    expandOneBasic true nSub nB nOut fAdv d p L =
      List.replicate (nSub + p) 1 ++ [L] ++ List.replicate (nB - p - 1) 1 := rfl

theorem expandOneAdv_true_eq (nB p : Nat) (a : List Nat) :
    expandOneAdv true nB p a = a ++ List.replicate nB 1 := rfl

theorem expandOneAdv_false_eq (nB p : Nat) (a : List Nat) :
    expandOneAdv false nB p a =
      List.replicate p 1 ++ a ++ List.replicate (nB - p) 1 := rfl

/-- Main invariant of the `expand_indices` loop: starting anywhere in the
walk, every emitted shape fits (reversed) under the predicted dimension
assignment `gammaF`, and has rank at most `nOut`. -/
theorem expandLoop_spec
    (full : List PIdx) (shape : List Nat) (moved : Bool) (nSub nB nOut fAdv pStar : Nat)
    (bd advC : List Nat)
    (hmoved : moved = movedSubspace (indexTypes full))
    (hnSub : nSub = nSubspaceDims full)
    (hnB : nB = full.countP is_basic_idx)
    (hnOut : nOut = nSub + nB)
    (hfAdv : fAdv = firstAdvIdx (indexTypes full) shape.length)
    (hpStar : pStar = (full.take fAdv).countP is_basic_idx)
    (hbd : bd = basicDims full shape)
    (hadvc : ∀ a ∈ advShapes full, RefR a.reverse advC.reverse) :
    ∀ (suffix : List PIdx) (d : Nat), full.drop d = suffix →
      ∀ e ∈ expandLoop moved nSub nB nOut fAdv suffix
            (shape.drop ((full.take d).countP (fun i => !is_newaxis i))) d
            ((full.take d).countP is_basic_idx),
        SubR (gammaF moved nSub nB nOut pStar bd advC) e.reverse ∧ e.length ≤ nOut := by
  intro suffix
  induction suffix with
  | nil =>
    intro d _ e he
    cases he
  | cons idx rest ih =>
    intro d hdrop e he
    have hdlt : d < full.length := lt_length_of_drop_eq_cons hdrop
    have hget : full.getD d PIdx.newaxis = idx := getD_of_drop_eq_cons _ hdrop
    have hdropsucc : full.drop (d + 1) = rest := drop_succ_of_drop_eq_cons hdrop
    have hcntB_le : (full.take d).countP is_basic_idx ≤ nB := by
      rw [hnB]
      exact countP_take_le full is_basic_idx d
    have htsd : (indexTypes full).getD d true = is_basic_idx idx := by
      rw [indexTypes_getD, hget]
    cases idx with
    | newaxis =>
      have hb1 : (full.take (d + 1)).countP is_basic_idx =
          (full.take d).countP is_basic_idx + 1 := by
        rw [countP_take_succ full is_basic_idx hdlt PIdx.newaxis, hget]
        simp [is_basic_idx]
      have hn1 : (full.take (d + 1)).countP (fun i => !is_newaxis i) =
          (full.take d).countP (fun i => !is_newaxis i) := by
        rw [countP_take_succ full _ hdlt PIdx.newaxis, hget]
        simp [is_newaxis]
      have hrec := ih (d + 1) hdropsucc e
      rw [hb1, hn1] at hrec
      exact hrec he
    | arr a =>
      have hb1 : (full.take (d + 1)).countP is_basic_idx =
          (full.take d).countP is_basic_idx := by
        rw [countP_take_succ full is_basic_idx hdlt PIdx.newaxis, hget]
        simp [is_basic_idx]
      have hn1 : (full.take (d + 1)).countP (fun i => !is_newaxis i) =
          (full.take d).countP (fun i => !is_newaxis i) + 1 := by
        rw [countP_take_succ full _ hdlt PIdx.newaxis, hget]
        simp [is_newaxis]
      have hmem_full : PIdx.arr a ∈ full := by
        rw [← hget]
        exact getD_mem hdlt PIdx.newaxis
      have hlen_a : a.length ≤ nSub := by
        rw [hnSub]
        exact advShape_le_nSubspaceDims hmem_full
      have hrefa : RefR a.reverse advC.reverse := hadvc a (mem_advShapes hmem_full)
      simp only [expandLoop] at he
      rcases List.mem_cons.mp he with rfl | he'
      · refine ⟨?_, ?_⟩
        · -- the emitted shape fits under gammaF
          cases moved with
          | true =>
            rw [expandOneAdv_true_eq, List.reverse_append, List.reverse_replicate]
            apply subR_prefix_block
            intro j
            rcases hrefa j with h1 | h1
            · exact Or.inl h1
            · right
              rw [h1, gammaF_moved_adv]
          | false =>
            -- all advanced indices share the same preceding-basic count
            have hts_d : (indexTypes full).getD d true = false := by
              rw [htsd]
              rfl
            obtain ⟨i0, h0, hi0⟩ :=
              firstIdx_some_le (p := fun b => !b) true
                (l := indexTypes full) (n := d)
                (by rw [length_indexTypes]; exact hdlt) (by rw [hts_d]; rfl)
            have hts_i0 : (indexTypes full).getD i0 true = false := by
              have h2 : (!((indexTypes full).getD i0 true)) = true := firstIdx_getD true h0
              cases hv : (indexTypes full).getD i0 true
              · rfl
              · rw [hv] at h2; cases h2
            have hfa : fAdv = i0 := by
              rw [hfAdv]
              unfold firstAdvIdx
              rw [h0]
            have hpeq : (full.take d).countP is_basic_idx = pStar := by
              rw [hpStar, hfa]
              have hsplit : full.take d = full.take i0 ++ (full.take d).drop i0 := by
                conv_lhs => rw [← List.take_append_drop i0 (full.take d)]
                rw [List.take_take, Nat.min_eq_left hi0]
              have hseg : ((full.take d).drop i0).countP is_basic_idx = 0 := by
                rw [List.countP_eq_zero]
                intro x hx
                obtain ⟨m, hm, hxe⟩ := List.mem_iff_getElem.mp hx
                have hlen : ((full.take d).drop i0).length = d - i0 := by
                  simp only [List.length_drop, List.length_take]
                  omega
                have hibound : i0 + m < d := by omega
                have hib2 : i0 + m < full.length := by omega
                have hxval : x = full[i0 + m] := by
                  rw [← hxe, List.getElem_drop, List.getElem_take]
                have htsm : (indexTypes full).getD (i0 + m) true = is_basic_idx x := by
                  rw [indexTypes_getD, hxval,
                    List.getD_eq_getElem full PIdx.newaxis (by omega)]
                intro hbasic
                cases Nat.eq_zero_or_pos m with
                | inl hm0 =>
                  subst hm0
                  rw [Nat.add_zero] at htsm
                  rw [hts_i0] at htsm
                  rw [hbasic] at htsm
                  cases htsm
                | inr hmpos =>
                  have hmv : movedSubspace (indexTypes full) = true :=
                    movedSubspace_of_pattern (i := i0) (j := i0 + m) (k := d)
                      (by omega) hibound (by rw [length_indexTypes]; omega)
                      hts_i0 (by rw [htsm, hbasic]) hts_d
                  rw [← hmoved] at hmv
                  cases hmv
              rw [hsplit, List.countP_append, hseg]
              omega
            rw [hpeq, expandOneAdv_false_eq, reverse_sandwich]
            apply subR_block
            intro j
            rcases Nat.lt_or_ge j a.length with hj | hj
            · rcases hrefa j with h1 | h1
              · exact Or.inl h1
              · right
                rw [h1, gammaF_nonmoved_adv]
                omega
            · left
              exact List.getD_eq_default _ _ (by simpa using hj)
        · rw [length_expandOneAdv moved nB _ a hcntB_le, hnOut]
          omega
      · have hsc : shape.drop ((full.take (d + 1)).countP (fun i => !is_newaxis i)) =
            (shape.drop ((full.take d).countP (fun i => !is_newaxis i))).tail := by
          rw [hn1, ← List.drop_one, List.drop_drop]
        have hrec := ih (d + 1) hdropsucc e
        rw [hb1, hsc] at hrec
        exact hrec he'
    | slice st sp se =>
      have hb1 : (full.take (d + 1)).countP is_basic_idx =
          (full.take d).countP is_basic_idx + 1 := by
        rw [countP_take_succ full is_basic_idx hdlt PIdx.newaxis, hget]
        simp [is_basic_idx]
      have hn1 : (full.take (d + 1)).countP (fun i => !is_newaxis i) =
          (full.take d).countP (fun i => !is_newaxis i) + 1 := by
        rw [countP_take_succ full _ hdlt PIdx.newaxis, hget]
        simp [is_newaxis]
      have hcntB_lt : (full.take d).countP is_basic_idx < nB := by
        have h2 := countP_take_le full is_basic_idx (d + 1)
        rw [hb1] at h2
        rw [hnB]
        omega
      have hbdp : bd.getD ((full.take d).countP is_basic_idx) 1 =
          sliceLen st sp se
            ((shape.drop ((full.take d).countP (fun i => !is_newaxis i))).headD 1) := by
        have hbds : basicDims full shape =
            basicDims (full.take d) shape ++
              basicDims (PIdx.slice st sp se :: rest)
                (shape.drop (nNonNewaxis (full.take d))) := by
          conv_lhs =>
            rw [show full = full.take d ++ full.drop d from (List.take_append_drop d full).symm]
          rw [basicDims_append, hdrop]
        rw [hbd, hbds,
          List.getD_append_right _ _ _ _ (by rw [basicDims_length]),
          basicDims_length, Nat.sub_self]
        rfl
      simp only [expandLoop] at he
      rcases List.mem_cons.mp he with rfl | he'
      · refine ⟨?_, ?_⟩
        · cases moved with
          | true =>
            rw [expandOneBasic_true_eq,
              show nB - (full.take d).countP is_basic_idx - 1
                  = nOut - (nSub + (full.take d).countP is_basic_idx) - 1 from by omega]
            apply subR_oneHot _ nOut _ (by omega)
            rw [show nOut - 1 - (nSub + (full.take d).countP is_basic_idx)
                = nB - 1 - (full.take d).countP is_basic_idx from by omega,
              gammaF_moved_basic _ _ _ _ _ _ _ hcntB_lt]
            exact hbdp
          | false =>
            cases h0 : firstIdx (fun b => !b) (indexTypes full) with
            | none =>
              have hsub0 : nSub = 0 := by
                rw [hnSub]
                exact nSubspaceDims_eq_zero_of_noadv full h0
              subst hsub0
              rw [expandOneBasic_false_eq, ite_self, Nat.zero_add]
              apply subR_oneHot _ nOut _ (by omega)
              rw [show nOut - 1 - (full.take d).countP is_basic_idx
                  = nB - 1 - (full.take d).countP is_basic_idx from by omega,
                gammaF_noadv_basic _ _ _ _ _ _ hcntB_lt (by omega)]
              exact hbdp
            | some i0 =>
              have hfa : fAdv = i0 := by
                rw [hfAdv]
                unfold firstAdvIdx
                rw [h0]
              by_cases hfd : fAdv < d
              · have hps : pStar ≤ (full.take d).countP is_basic_idx := by
                  rw [hpStar]
                  exact countP_take_mono full is_basic_idx (Nat.le_of_lt hfd)
                rw [expandOneBasic_false_eq, if_pos hfd]
                apply subR_oneHot _ nOut _ (by omega)
                rw [show nOut - 1 - (nSub + (full.take d).countP is_basic_idx)
                    = nB - 1 - (full.take d).countP is_basic_idx from by omega,
                  gammaF_post_basic _ _ _ _ _ _ _ hcntB_lt hps]
                exact hbdp
              · have hts_i0 : (indexTypes full).getD i0 true = false := by
                  have h2 : (!((indexTypes full).getD i0 true)) = true := firstIdx_getD true h0
                  cases hv : (indexTypes full).getD i0 true
                  · rfl
                  · rw [hv] at h2; cases h2
                have hdi0 : d < i0 := by
                  rcases Nat.lt_or_ge d i0 with h | h
                  · exact h
                  · exfalso
                    have hdeq : d = i0 := by omega
                    rw [← hdeq, htsd] at hts_i0
                    cases hts_i0
                have hplt : (full.take d).countP is_basic_idx < pStar := by
                  have h2 := countP_take_mono full is_basic_idx (show d + 1 ≤ i0 from by omega)
                  rw [hb1] at h2
                  rw [hpStar, hfa]
                  omega
                have hpsn : pStar ≤ nB := by
                  rw [hpStar, hnB]
                  exact countP_take_le full is_basic_idx fAdv
                rw [expandOneBasic_false_eq, if_neg hfd, Nat.zero_add]
                apply subR_oneHot _ nOut _ (by omega)
                rw [gammaF_pre_basic _ _ _ _ _ _ _ hplt hpsn hnOut]
                exact hbdp
        · exact Nat.le_of_eq (length_expandOneBasic moved nSub nB nOut fAdv d _ _ hcntB_lt hnOut)
      · have hsc : shape.drop ((full.take (d + 1)).countP (fun i => !is_newaxis i)) =
            (shape.drop ((full.take d).countP (fun i => !is_newaxis i))).tail := by
          rw [hn1, ← List.drop_one, List.drop_drop]
        have hrec := ih (d + 1) hdropsucc e
        rw [hb1, hsc] at hrec
        exact hrec he'

/-- The loop emits exactly one expanded index per non-newaxis entry. -/
theorem expandLoop_count (moved : Bool) (nSub nB nOut fAdv : Nat) :
    ∀ (suffix : List PIdx) (sc : List Nat) (d p : Nat),
      (expandLoop moved nSub nB nOut fAdv suffix sc d p).length =
        suffix.countP (fun i => !is_newaxis i)
  | [], _, _, _ => rfl
  | .newaxis :: rest, sc, d, p => by
    simp only [expandLoop, List.countP_cons]
    rw [expandLoop_count moved nSub nB nOut fAdv rest sc (d + 1) (p + 1)]
    simp [is_newaxis]
  | .slice st sp se :: rest, sc, d, p => by
    simp only [expandLoop, List.countP_cons, List.length_cons]
    rw [expandLoop_count moved nSub nB nOut fAdv rest sc.tail (d + 1) (p + 1)]
    simp [is_newaxis]
  | .arr a :: rest, sc, d, p => by
    simp only [expandLoop, List.countP_cons, List.length_cons]
    rw [expandLoop_count moved nSub nB nOut fAdv rest sc.tail (d + 1) p]
    simp [is_newaxis]

/-- If the suffix of the walk still contains a slice, or an advanced index of
the maximal rank, the loop emits a shape of full rank `nOut`. -/
theorem expandLoop_attains
    (full : List PIdx) (shape : List Nat) (moved : Bool) (nSub nB nOut fAdv : Nat)
    (_hnSub : nSub = nSubspaceDims full)
    (hnB : nB = full.countP is_basic_idx)
    (hnOut : nOut = nSub + nB) :
    ∀ (suffix : List PIdx) (d : Nat), full.drop d = suffix →
      ((∃ st sp se, PIdx.slice st sp se ∈ suffix) ∨
        (∃ a, PIdx.arr a ∈ suffix ∧ a.length = nSub)) →
      ∃ e ∈ expandLoop moved nSub nB nOut fAdv suffix
            (shape.drop ((full.take d).countP (fun i => !is_newaxis i))) d
            ((full.take d).countP is_basic_idx),
        e.length = nOut := by
  intro suffix
  induction suffix with
  | nil =>
    intro d _ hwit
    exfalso
    rcases hwit with ⟨_, _, _, h⟩ | ⟨_, h, _⟩ <;> cases h
  | cons idx rest ih =>
    intro d hdrop hwit
    have hdlt : d < full.length := lt_length_of_drop_eq_cons hdrop
    have hget : full.getD d PIdx.newaxis = idx := getD_of_drop_eq_cons _ hdrop
    have hdropsucc : full.drop (d + 1) = rest := drop_succ_of_drop_eq_cons hdrop
    have hcntB_le : (full.take d).countP is_basic_idx ≤ nB := by
      rw [hnB]
      exact countP_take_le full is_basic_idx d
    cases idx with
    | newaxis =>
      have hb1 : (full.take (d + 1)).countP is_basic_idx =
          (full.take d).countP is_basic_idx + 1 := by
        rw [countP_take_succ full is_basic_idx hdlt PIdx.newaxis, hget]
        simp [is_basic_idx]
      have hn1 : (full.take (d + 1)).countP (fun i => !is_newaxis i) =
          (full.take d).countP (fun i => !is_newaxis i) := by
        rw [countP_take_succ full _ hdlt PIdx.newaxis, hget]
        simp [is_newaxis]
      have hwit' : (∃ st sp se, PIdx.slice st sp se ∈ rest) ∨
          (∃ a, PIdx.arr a ∈ rest ∧ a.length = nSub) := by
        rcases hwit with ⟨st, sp, se, h⟩ | ⟨a, h, ha⟩
        · rcases List.mem_cons.mp h with h' | h'
          · cases h'
          · exact Or.inl ⟨st, sp, se, h'⟩
        · rcases List.mem_cons.mp h with h' | h'
          · cases h'
          · exact Or.inr ⟨a, h', ha⟩
      have hrec := ih (d + 1) hdropsucc hwit'
      rw [hb1, hn1] at hrec
      exact hrec
    | arr a =>
      have hb1 : (full.take (d + 1)).countP is_basic_idx =
          (full.take d).countP is_basic_idx := by
        rw [countP_take_succ full is_basic_idx hdlt PIdx.newaxis, hget]
        simp [is_basic_idx]
      have hn1 : (full.take (d + 1)).countP (fun i => !is_newaxis i) =
          (full.take d).countP (fun i => !is_newaxis i) + 1 := by
        rw [countP_take_succ full _ hdlt PIdx.newaxis, hget]
        simp [is_newaxis]
      have hsc : shape.drop ((full.take (d + 1)).countP (fun i => !is_newaxis i)) =
          (shape.drop ((full.take d).countP (fun i => !is_newaxis i))).tail := by
        rw [hn1, ← List.drop_one, List.drop_drop]
      rcases hwit with ⟨st, sp, se, h⟩ | ⟨a', h, ha'⟩
      · rcases List.mem_cons.mp h with h' | h'
        · cases h'
        · simp only [expandLoop]
          have hrec := ih (d + 1) hdropsucc (Or.inl ⟨st, sp, se, h'⟩)
          rw [hb1, hsc] at hrec
          obtain ⟨e, hmem, hlen⟩ := hrec
          exact ⟨e, List.mem_cons_of_mem _ hmem, hlen⟩
      · rcases List.mem_cons.mp h with h' | h'
        · have haa : a' = a := by injection h'
          subst haa
          refine ⟨expandOneAdv moved nB ((full.take d).countP is_basic_idx) a', ?_, ?_⟩
          · simp [expandLoop]
          · rw [length_expandOneAdv moved nB _ a' hcntB_le, ha', hnOut]
        · simp only [expandLoop]
          have hrec := ih (d + 1) hdropsucc (Or.inr ⟨a', h', ha'⟩)
          rw [hb1, hsc] at hrec
          obtain ⟨e, hmem, hlen⟩ := hrec
          exact ⟨e, List.mem_cons_of_mem _ hmem, hlen⟩
    | slice st sp se =>
      have hb1 : (full.take (d + 1)).countP is_basic_idx =
          (full.take d).countP is_basic_idx + 1 := by
        rw [countP_take_succ full is_basic_idx hdlt PIdx.newaxis, hget]
        simp [is_basic_idx]
      have hcntB_lt : (full.take d).countP is_basic_idx < nB := by
        have h2 := countP_take_le full is_basic_idx (d + 1)
        rw [hb1] at h2
        rw [hnB]
        omega
      refine ⟨expandOneBasic moved nSub nB nOut fAdv d ((full.take d).countP is_basic_idx)
        (sliceLen st sp se
          ((shape.drop ((full.take d).countP (fun i => !is_newaxis i))).headD 1)), ?_, ?_⟩
      · simp [expandLoop]
      · exact length_expandOneBasic moved nSub nB nOut fAdv d _ _ hcntB_lt hnOut

theorem countP_replicate (p : α → Bool) (x : α) :
    ∀ n, (List.replicate n x).countP p = if p x then n else 0
  | 0 => by simp
  | n + 1 => by
    rw [List.replicate_succ, List.countP_cons, countP_replicate p x n]
    split <;> omega

/-- Under the precondition, the full index list has exactly one non-newaxis
entry per dimension of the shape. -/
theorem nNonNewaxis_fullIndices (indices : List PIdx) (shape : List Nat)
    (hpre : indices.length ≤ shape.length) :
    nNonNewaxis (fullIndices indices shape) = shape.length := by
  unfold fullIndices nNonNewaxis
  rw [List.countP_append, countP_replicate]
  have h1 : indices.countP (fun i => !is_newaxis i) ≤ indices.length :=
    List.countP_le_length _
  rw [if_pos (show (!is_newaxis (PIdx.slice none none none)) = true from rfl)]
  omega

/-- A non-trivial index list contains a slice or an advanced index attaining
the subspace rank. -/
theorem full_attains (full : List PIdx) (h : 0 < nNonNewaxis full) :
    (∃ st sp se, PIdx.slice st sp se ∈ full) ∨
      (∃ a, PIdx.arr a ∈ full ∧ a.length = nSubspaceDims full) := by
  unfold nNonNewaxis at h
  rw [List.countP_pos_iff] at h
  obtain ⟨x, hx, hpx⟩ := h
  cases x with
  | newaxis => simp [is_newaxis] at hpx
  | slice st sp se => exact Or.inl ⟨st, sp, se, hx⟩
  | arr a0 =>
    right
    unfold nSubspaceDims
    rcases foldl_max_attained pidxNdim (full.filter (fun i => !is_basic_idx i)) 0 with h0 | h0
    · refine ⟨a0, hx, ?_⟩
      have hle := advShape_le_nSubspaceDims hx
      unfold nSubspaceDims at hle
      omega
    · obtain ⟨x, hxf, hfold⟩ := h0
      have hxadv : ∃ a, x = PIdx.arr a := by
        rcases List.mem_filter.mp hxf with ⟨_, hnb⟩
        cases x with
        | newaxis => simp [is_basic_idx] at hnb
        | slice _ _ _ => simp [is_basic_idx] at hnb
        | arr a => exact ⟨a, rfl⟩
      obtain ⟨a, rfl⟩ := hxadv
      exact ⟨a, (List.mem_filter.mp hxf).1, by rw [hfold]; rfl⟩

/-- C3 (amended): for any tuple of indices and any shape satisfying the
precondition `len(indices) <= len(shape)` (missing trailing dimensions
auto-filled with full slices), and whose advanced (array) indices are
mutually broadcastable — as valid NumPy-style indexing requires —
`expand_indices` returns one index array per dimension of the shape, all
mutually broadcastable to one common shape, and the rank of that common
broadcast shape equals the subspace rank (the maximum rank among the
advanced indices) plus the count of basic indices.  The original claim,
without the mutual-broadcastability hypothesis, is refuted by
`expand_indices_not_broadcastable_counterexample`. -/
theorem expand_indices_spec (indices : List PIdx) (shape : List Nat)
    (hpre : indices.length ≤ shape.length)
    (hadv : (broadcastCommon (advShapes (fullIndices indices shape))).isSome = true) :
    ∃ out common, expand_indices indices shape = some out ∧
      out.length = shape.length ∧ (∀ s ∈ out, s = common) ∧
      common.length =
        nSubspaceDims (fullIndices indices shape) +
          nBasicIndices (indexTypes (fullIndices indices shape)) := by
  by_cases hsz : shape = []
  · subst hsz
    have hind : indices = [] := List.length_eq_zero.mp (Nat.le_zero.mp hpre)
    subst hind
    exact ⟨[], [], rfl, rfl, by simp, rfl⟩
  · obtain ⟨c0, hc0⟩ : ∃ c0,
        broadcastCommonR ((advShapes (fullIndices indices shape)).map List.reverse) =
          some c0 := by
      unfold broadcastCommon at hadv
      cases h : broadcastCommonR ((advShapes (fullIndices indices shape)).map List.reverse) with
      | none => rw [h] at hadv; cases hadv
      | some c0 => exact ⟨c0, rfl⟩
    have hadvc : ∀ a ∈ advShapes (fullIndices indices shape),
        RefR a.reverse (c0.reverse).reverse := by
      intro a ha
      rw [List.reverse_reverse]
      exact broadcastCommonR_refines hc0 a.reverse (List.mem_map_of_mem _ ha)
    have hsubs := expandLoop_spec (fullIndices indices shape) shape
      (movedSubspace (indexTypes (fullIndices indices shape)))
      (nSubspaceDims (fullIndices indices shape))
      (nBasicIndices (indexTypes (fullIndices indices shape)))
      (nSubspaceDims (fullIndices indices shape) +
        nBasicIndices (indexTypes (fullIndices indices shape)))
      (firstAdvIdx (indexTypes (fullIndices indices shape)) shape.length)
      (((fullIndices indices shape).take
          (firstAdvIdx (indexTypes (fullIndices indices shape)) shape.length)).countP
        is_basic_idx)
      (basicDims (fullIndices indices shape) shape) c0.reverse
      rfl rfl (nBasicIndices_indexTypes _) rfl rfl rfl rfl hadvc
      (fullIndices indices shape) 0 (List.drop_zero _)
    rw [List.take_zero, List.countP_nil, List.countP_nil, List.drop_zero] at hsubs
    have hraw : expandIndicesRaw indices shape =
        expandLoop (movedSubspace (indexTypes (fullIndices indices shape)))
          (nSubspaceDims (fullIndices indices shape))
          (nBasicIndices (indexTypes (fullIndices indices shape)))
          (nSubspaceDims (fullIndices indices shape) +
            nBasicIndices (indexTypes (fullIndices indices shape)))
          (firstAdvIdx (indexTypes (fullIndices indices shape)) shape.length)
          (fullIndices indices shape) shape 0 0 := rfl
    have hsubR : ∀ s ∈ (expandIndicesRaw indices shape).map List.reverse,
        SubR (gammaF (movedSubspace (indexTypes (fullIndices indices shape)))
          (nSubspaceDims (fullIndices indices shape))
          (nBasicIndices (indexTypes (fullIndices indices shape)))
          (nSubspaceDims (fullIndices indices shape) +
            nBasicIndices (indexTypes (fullIndices indices shape)))
          (((fullIndices indices shape).take
              (firstAdvIdx (indexTypes (fullIndices indices shape)) shape.length)).countP
            is_basic_idx)
          (basicDims (fullIndices indices shape) shape) c0.reverse) s := by
      intro s hs
      obtain ⟨e, he, rfl⟩ := List.mem_map.mp hs
      rw [hraw] at he
      exact (hsubs e he).1
    obtain ⟨c, hcomm, hcsub, hclen⟩ := broadcastCommonR_of_subR _ hsubR
    have hlens : ∀ e ∈ expandIndicesRaw indices shape,
        e.length ≤ nSubspaceDims (fullIndices indices shape) +
          nBasicIndices (indexTypes (fullIndices indices shape)) := by
      intro e he
      rw [hraw] at he
      exact (hsubs e he).2
    have hrawlen : (expandIndicesRaw indices shape).length = shape.length := by
      rw [hraw, expandLoop_count]
      exact nNonNewaxis_fullIndices indices shape hpre
    have hattain : ∃ e ∈ expandIndicesRaw indices shape,
        e.length = nSubspaceDims (fullIndices indices shape) +
          nBasicIndices (indexTypes (fullIndices indices shape)) := by
      have hwit := full_attains (fullIndices indices shape)
        (by
          rw [nNonNewaxis_fullIndices indices shape hpre]
          cases shape with
          | nil => exact absurd rfl hsz
          | cons s0 rest => simp)
      have h2 := expandLoop_attains (fullIndices indices shape) shape
        (movedSubspace (indexTypes (fullIndices indices shape)))
        (nSubspaceDims (fullIndices indices shape))
        (nBasicIndices (indexTypes (fullIndices indices shape)))
        (nSubspaceDims (fullIndices indices shape) +
          nBasicIndices (indexTypes (fullIndices indices shape)))
        (firstAdvIdx (indexTypes (fullIndices indices shape)) shape.length)
        rfl (nBasicIndices_indexTypes _) rfl
        (fullIndices indices shape) 0 (List.drop_zero _)
        (by
          rcases hwit with ⟨st, sp, se, hmem⟩ | ⟨a, hmem, ha⟩
          · exact Or.inl ⟨st, sp, se, hmem⟩
          · exact Or.inr ⟨a, hmem, ha⟩)
      rw [List.take_zero, List.countP_nil, List.countP_nil, List.drop_zero, ← hraw] at h2
      exact h2
    have hfold : ((expandIndicesRaw indices shape).map List.reverse).foldl
        (fun m s => max m s.length) 0 =
        nSubspaceDims (fullIndices indices shape) +
          nBasicIndices (indexTypes (fullIndices indices shape)) := by
      rw [List.foldl_map]
      have hle : ((expandIndicesRaw indices shape).foldl
          (fun m s => max m s.reverse.length) 0) ≤
          nSubspaceDims (fullIndices indices shape) +
            nBasicIndices (indexTypes (fullIndices indices shape)) := by
        have := foldl_max_le (fun s : List Nat => s.reverse.length)
          (nSubspaceDims (fullIndices indices shape) +
            nBasicIndices (indexTypes (fullIndices indices shape)))
          (expandIndicesRaw indices shape) 0 (Nat.zero_le _)
          (fun x hx => by simpa using hlens x hx)
        exact this
      obtain ⟨e, he, helen⟩ := hattain
      have hge : e.reverse.length ≤ (expandIndicesRaw indices shape).foldl
          (fun m s => max m s.reverse.length) 0 :=
        foldl_max_ge (fun s : List Nat => s.reverse.length)
          (expandIndicesRaw indices shape) 0 e he
      rw [List.length_reverse, helen] at hge
      omega
    refine ⟨(expandIndicesRaw indices shape).map (fun _ => c.reverse), c.reverse, ?_, ?_, ?_, ?_⟩
    · unfold expand_indices broadcastCommon
      rw [hcomm]
      rfl
    · rw [List.length_map]
      exact hrawlen
    · intro s hs
      obtain ⟨e, _, rfl⟩ := List.mem_map.mp hs
      rfl
    · rw [List.length_reverse, hclen, hfold]


/-- C3 counterexample: two advanced integer-array indices of incompatible
shapes satisfy the stated precondition `len(indices) <= len(shape)`, yet the
expanded indices are not mutually broadcastable (`pt.broadcast_arrays` has no
common shape), refuting the claim as stated. -/
theorem expand_indices_not_broadcastable_counterexample :
    ([PIdx.arr [2], PIdx.arr [3]] : List PIdx).length ≤ ([5, 5] : List Nat).length ∧
      expand_indices [PIdx.arr [2], PIdx.arr [3]] [5, 5] = none := by
  constructor
  · decide
  · rfl

/-- Witness for `expand_indices_spec`: a moved-subspace indexing with two
broadcastable advanced indices. -/
theorem expand_indices_spec_witness :
    ([PIdx.arr [2, 1], PIdx.slice none none none, PIdx.arr [3]] : List PIdx).length ≤
        ([9, 8, 7] : List Nat).length ∧
      (broadcastCommon (advShapes
        (fullIndices [PIdx.arr [2, 1], PIdx.slice none none none, PIdx.arr [3]]
          [9, 8, 7]))).isSome = true ∧
      ∃ out common,
        expand_indices [PIdx.arr [2, 1], PIdx.slice none none none, PIdx.arr [3]]
            [9, 8, 7] = some out ∧
          out.length = ([9, 8, 7] : List Nat).length ∧ (∀ s ∈ out, s = common) ∧
          common.length =
            nSubspaceDims (fullIndices
                [PIdx.arr [2, 1], PIdx.slice none none none, PIdx.arr [3]] [9, 8, 7]) +
              nBasicIndices (indexTypes (fullIndices
                [PIdx.arr [2, 1], PIdx.slice none none none, PIdx.arr [3]] [9, 8, 7])) :=
  ⟨by decide, by decide,
    expand_indices_spec [PIdx.arr [2, 1], PIdx.slice none none none, PIdx.arr [3]]
      [9, 8, 7] (by decide) (by decide)⟩


/-! ## `logprob_MixtureRV`, vector/array regime (claim C1)

The logprob graph built for a `MixtureRV` placeholder when there is more
than one index or the single index has rank > 0.  The broadcast index set
(the output of `expand_indices`, all arrays already broadcast to one common
shape) is modelled flattened: one list of positions per original dimension,
all of the same length `numPos`.  `lp c rows vals` stands for the recursive
call `_logprob_helper(rv_pull_down(rv[m_indices]), val_m)` on component `c`
with the gathered sub-index columns `rows` and gathered value entries
`vals`; it is an external parameter of the model, exactly as the recursive
density derivation is external to the source function. -/

/-- `logp_val = pt.set_subtensor(logp_val[positions], vals)`: write the
values elementwise at the given (flattened) positions.  The buffer starts as
`pt.empty`, modelled as `none` entries. -/
def writeAt {α : Type _} : List (Option α) → List Nat → List α → List (Option α)
  | buf, [], _ => buf
  | buf, _ :: _, [] => buf
  | buf, p :: ps, x :: xs => writeAt (buf.set p (some x)) ps xs

/-- One iteration per mixture component `m`: find the positions where the
join-axis index equals `m`, gather the remaining sub-indices and the value
entries at those positions, derive the density there, and write it into the
buffer at those positions. -/
def vectorGo {Comp V α : Type _} [Inhabited V]
    (lp : Comp → List (List Nat) → List V → List α)
    (jaVal : Nat) (bcast : List (List Nat)) (value : List V) (numPos : Nat) :
    List Comp → Nat → List (Option α) → List (Option α)
  | [], _, buf => buf
  | c :: cs, m, buf =>
    let bj := bcast.getD jaVal []
    let pos := (List.range numPos).filter (fun q => bj.getD q 0 == m)
    let rows := (bcast.eraseIdx jaVal).map (fun col => pos.map (fun q => col.getD q 0))
    let vals := pos.map (fun q => value.getD q default)
    vectorGo lp jaVal bcast value numPos cs (m + 1) (writeAt buf pos (lp c rows vals))

/-- The vector/array regime of `logprob_MixtureRV`: an output buffer shaped
like the broadcast indices, filled per component. -/
def logprob_MixtureRV_vector {Comp V α : Type _} [Inhabited V]
    (lp : Comp → List (List Nat) → List V → List α)
    (jaVal : Nat) (bcast : List (List Nat)) (value : List V) (comps : List Comp) :
    List (Option α) :=
  vectorGo lp jaVal bcast value (bcast.getD 0 []).length comps 0
    (List.replicate (bcast.getD 0 []).length none)

theorem writeAt_length {α : Type _} :
    ∀ (buf : List (Option α)) (ps : List Nat) (xs : List α),
      (writeAt buf ps xs).length = buf.length
  | _, [], _ => rfl
  | _, _ :: _, [] => rfl
  | buf, p :: ps, x :: xs => by
    rw [writeAt, writeAt_length (buf.set p (some x)) ps xs, List.length_set]

theorem writeAt_not_mem {α : Type _} :
    ∀ (buf : List (Option α)) (ps : List Nat) (xs : List α) (q : Nat), q ∉ ps →
      (writeAt buf ps xs).getD q none = buf.getD q none
  | _, [], _, _, _ => rfl
  | _, _ :: _, [], _, _ => rfl
  | buf, p :: ps, x :: xs, q, hq => by
    rw [writeAt, writeAt_not_mem (buf.set p (some x)) ps xs q (fun h => hq (by simp [h]))]
    have hpq : p ≠ q := fun h => hq (by simp [h])
    rcases Nat.lt_or_ge q buf.length with hlt | hge
    · rw [List.getD_eq_getElem _ _ (by simpa using hlt), List.getD_eq_getElem _ _ hlt,
        List.getElem_set_ne hpq]
    · rw [List.getD_eq_default _ _ (by simpa using hge), List.getD_eq_default _ _ hge]

theorem writeAt_hit {α : Type _} :
    ∀ (buf : List (Option α)) (ps : List Nat) (xs : List α) (k p : Nat) (x : α),
      ps.Nodup → ps[k]? = some p → xs[k]? = some x → p < buf.length →
      (writeAt buf ps xs).getD p none = some x
  | buf, [], xs, k, p, x, _, hp, _, _ => by cases k <;> cases hp
  | buf, p0 :: ps, [], k, p, x, _, _, hx, _ => by cases k <;> cases hx
  | buf, p0 :: ps, x0 :: xs, 0, p, x, hnd, hp, hx, hplen => by
    rw [List.getElem?_cons_zero] at hp hx
    cases hp
    cases hx
    rw [writeAt, writeAt_not_mem _ ps xs p0 (by simp at hnd; exact hnd.1)]
    rw [List.getD_eq_getElem _ _ (by simpa using hplen), List.getElem_set_self]
  | buf, p0 :: ps, x0 :: xs, k + 1, p, x, hnd, hp, hx, hplen => by
    rw [List.getElem?_cons_succ] at hp hx
    rw [writeAt]
    exact writeAt_hit (buf.set p0 (some x0)) ps xs k p x (by simp at hnd; exact hnd.2)
      hp hx (by simpa using hplen)

theorem vectorGo_skip {Comp V α : Type _} [Inhabited V]
    (lp : Comp → List (List Nat) → List V → List α)
    (jaVal : Nat) (bcast : List (List Nat)) (value : List V) (numPos : Nat) :
    ∀ (cs : List Comp) (m0 : Nat) (buf : List (Option α)) (p : Nat),
      (∀ j, j < cs.length → (bcast.getD jaVal []).getD p 0 ≠ m0 + j) →
      (vectorGo lp jaVal bcast value numPos cs m0 buf).getD p none = buf.getD p none
  | [], _, _, _, _ => rfl
  | c :: cs, m0, buf, p, hskip => by
    rw [vectorGo]
    rw [vectorGo_skip lp jaVal bcast value numPos cs (m0 + 1) _ p
      (fun j hj => by
        have := hskip (j + 1) (by simpa using Nat.succ_lt_succ hj)
        omega)]
    apply writeAt_not_mem
    intro hmem
    rcases List.mem_filter.mp hmem with ⟨_, hbeq⟩
    have := hskip 0 (by simp)
    rw [Nat.beq_eq_true_eq] at hbeq
    omega

theorem vectorGo_length {Comp V α : Type _} [Inhabited V]
    (lp : Comp → List (List Nat) → List V → List α)
    (jaVal : Nat) (bcast : List (List Nat)) (value : List V) (numPos : Nat) :
    ∀ (cs : List Comp) (m0 : Nat) (buf : List (Option α)),
      (vectorGo lp jaVal bcast value numPos cs m0 buf).length = buf.length
  | [], _, _ => rfl
  | c :: cs, m0, buf => by
    rw [vectorGo, vectorGo_length lp jaVal bcast value numPos cs (m0 + 1) _, writeAt_length]


theorem getElem?_of_mem {α : Type _} {l : List α} {x : α} (h : x ∈ l) :
    ∃ k : Nat, l[k]? = some x := by
  obtain ⟨k, hk, rfl⟩ := List.mem_iff_getElem.mp h
  exact ⟨k, List.getElem?_eq_getElem hk⟩

theorem lt_length_of_getElem?_eq_some {α : Type _} {l : List α} {k : Nat} {x : α}
    (h : l[k]? = some x) : k < l.length := by
  by_contra hc
  rw [List.getElem?_eq_none (by omega)] at h
  cases h

theorem getElem_of_getElem?_eq_some {α : Type _} {l : List α} {k : Nat} {x : α}
    (h : l[k]? = some x) : ∃ hk : k < l.length, l[k] = x := by
  have hk := lt_length_of_getElem?_eq_some h
  rw [List.getElem?_eq_getElem hk] at h
  cases h
  exact ⟨hk, rfl⟩

theorem vectorGo_hit {Comp V α : Type _} [Inhabited V] [Inhabited Comp]
    (lp : Comp → List (List Nat) → List V → List α)
    (jaVal : Nat) (bcast : List (List Nat)) (value : List V) (numPos : Nat)
    (hlen : ∀ c rows vals, (lp c rows vals).length = vals.length) :
    ∀ (cs : List Comp) (m0 : Nat) (buf : List (Option α)) (j0 p : Nat),
      buf.length = numPos → j0 < cs.length → p < numPos →
      (bcast.getD jaVal []).getD p 0 = m0 + j0 →
      ∃ k : Nat, ((List.range numPos).filter
          (fun q => (bcast.getD jaVal []).getD q 0 == m0 + j0))[k]? = some p ∧
        (vectorGo lp jaVal bcast value numPos cs m0 buf).getD p none =
          (lp (cs.getD j0 default)
            ((bcast.eraseIdx jaVal).map (fun col =>
              ((List.range numPos).filter
                (fun q => (bcast.getD jaVal []).getD q 0 == m0 + j0)).map
                (fun q => col.getD q 0)))
            (((List.range numPos).filter
              (fun q => (bcast.getD jaVal []).getD q 0 == m0 + j0)).map
              (fun q => value.getD q default)))[k]?
  | [], _, _, j0, _, _, hj0, _, _ => absurd hj0 (by simp)
  | c :: cs, m0, buf, 0, p, hbuf, hj0, hp, hbj => by
    rw [Nat.add_zero] at hbj ⊢
    have hmem : p ∈ (List.range numPos).filter
        (fun q => (bcast.getD jaVal []).getD q 0 == m0) := by
      rw [List.mem_filter]
      exact ⟨List.mem_range.mpr hp, by rw [hbj]; simp⟩
    obtain ⟨k, hk⟩ := getElem?_of_mem hmem
    refine ⟨k, hk, ?_⟩
    have hklt := lt_length_of_getElem?_eq_some hk
    have hxs : k < (lp c
        ((bcast.eraseIdx jaVal).map (fun col =>
          ((List.range numPos).filter
            (fun q => (bcast.getD jaVal []).getD q 0 == m0)).map (fun q => col.getD q 0)))
        (((List.range numPos).filter
          (fun q => (bcast.getD jaVal []).getD q 0 == m0)).map
          (fun q => value.getD q default))).length := by
      rw [hlen, List.length_map]
      exact hklt
    rw [vectorGo, getD_cons_zero]
    rw [vectorGo_skip lp jaVal bcast value numPos cs (m0 + 1) _ p
      (fun j hj => by rw [hbj]; omega)]
    rw [List.getElem?_eq_getElem hxs]
    exact writeAt_hit buf _ _ k p _
      ((List.nodup_range numPos).filter _) hk (List.getElem?_eq_getElem hxs)
      (by rw [hbuf]; exact hp)
  | c :: cs, m0, buf, j0 + 1, p, hbuf, hj0, hp, hbj => by
    have hstep : m0 + (j0 + 1) = (m0 + 1) + j0 := by omega
    rw [hstep] at hbj ⊢
    rw [vectorGo, getD_cons_succ]
    exact vectorGo_hit lp jaVal bcast value numPos hlen cs (m0 + 1) _ j0 p
      (by rw [writeAt_length]; exact hbuf)
      (by simp only [List.length_cons] at hj0; omega) hp hbj

/-- C1: in the vector/array regime (more than one index, or one index of
positive rank) with a constant join axis, the log-density graph built by
`logprob_MixtureRV` assigns to every output position whose expanded
join-axis index equals `m` exactly the recursively-derived log-density
(`lp`, i.e. `_logprob_helper` after `rv_pull_down` and sub-indexing) of
component `m`, evaluated at that position's remaining sub-indices and at
that position's observed-value entry, written into the `pt.empty` output
buffer at that position. -/
theorem logprob_MixtureRV_vector_pointwise {Comp V α : Type _} [Inhabited V] [Inhabited Comp]
    (lp : Comp → List (List Nat) → List V → List α)
    (dens : Comp → List Nat → V → α)
    (jaVal : Nat) (bcast : List (List Nat)) (value : List V) (comps : List Comp)
    (p m : Nat)
    (hlen : ∀ c rows vals, (lp c rows vals).length = vals.length)
    (helem : ∀ c rows vals k, k < vals.length →
      (lp c rows vals)[k]? =
        some (dens c (rows.map (fun r => r.getD k 0)) (vals.getD k default)))
    (hp : p < (bcast.getD 0 []).length)
    (hm : m < comps.length)
    (hbj : (bcast.getD jaVal []).getD p 0 = m) :
    (logprob_MixtureRV_vector lp jaVal bcast value comps).getD p none =
      some (dens (comps.getD m default)
        ((bcast.eraseIdx jaVal).map (fun col => col.getD p 0))
        (value.getD p default)) := by
  unfold logprob_MixtureRV_vector
  obtain ⟨k, hk, hres⟩ := vectorGo_hit lp jaVal bcast value (bcast.getD 0 []).length hlen
    comps 0 (List.replicate (bcast.getD 0 []).length none) m p
    (List.length_replicate _ _) hm hp (by rw [hbj]; omega)
  rw [show (0 : Nat) + m = m from by omega] at hk hres
  have hklt := lt_length_of_getElem?_eq_some hk
  obtain ⟨hklt', hkp⟩ := getElem_of_getElem?_eq_some hk
  rw [hres, helem _ _ _ k (by rw [List.length_map]; exact hklt)]
  congr 1
  have hposk : ∀ (f : Nat → Nat),
      (((List.range (bcast.getD 0 []).length).filter
        (fun q => (bcast.getD jaVal []).getD q 0 == m)).map f).getD k 0 = f p := by
    intro f
    rw [List.getD_eq_getElem _ _ (by rw [List.length_map]; exact hklt), List.getElem_map, hkp]
  have hvalk : (((List.range (bcast.getD 0 []).length).filter
      (fun q => (bcast.getD jaVal []).getD q 0 == m)).map
      (fun q => value.getD q default)).getD k default = value.getD p default := by
    rw [List.getD_eq_getElem _ _ (by rw [List.length_map]; exact hklt), List.getElem_map, hkp]
  have hfun : ((fun r : List Nat => r.getD k 0) ∘ fun col : List Nat =>
      ((List.range (bcast.getD 0 []).length).filter
        (fun q => (bcast.getD jaVal []).getD q 0 == m)).map (fun q => col.getD q 0)) =
      (fun col : List Nat => col.getD p 0) := by
    funext col
    simp only [Function.comp]
    exact hposk (fun q => col.getD q 0)
  rw [List.map_map, hvalk, hfun]


/-- Witness for `logprob_MixtureRV_vector_pointwise`: a two-component
mixture over a 2-D index space with join axis 0, checked at output
position 2 which the join-axis index assigns to component 0. -/
theorem logprob_MixtureRV_vector_pointwise_witness :
    (2 < ((([[0, 1, 0, 1, 1], [0, 1, 2, 3, 4]] : List (List Nat))).getD 0 []).length) ∧
      (0 < ([3, 4] : List Nat).length) ∧
      ((([[0, 1, 0, 1, 1], [0, 1, 2, 3, 4]] : List (List Nat)).getD 0 []).getD 2 0 = 0) ∧
      (logprob_MixtureRV_vector
          (fun (c : Nat) (rows : List (List Nat)) (vals : List Nat) =>
            (List.range vals.length).map (fun k =>
              c * 100 + (rows.map (fun r => r.getD k 0)).sum * 10 + vals.getD k default))
          0 [[0, 1, 0, 1, 1], [0, 1, 2, 3, 4]] [9, 8, 7, 6, 5] [3, 4]).getD 2 none =
        some 327 := by
  refine ⟨by decide, by decide, by decide, ?_⟩
  rw [logprob_MixtureRV_vector_pointwise
    (fun (c : Nat) (rows : List (List Nat)) (vals : List Nat) =>
      (List.range vals.length).map (fun k =>
        c * 100 + (rows.map (fun r => r.getD k 0)).sum * 10 + vals.getD k default))
    (fun (c : Nat) (row : List Nat) (v : Nat) => c * 100 + row.sum * 10 + v)
    0 [[0, 1, 0, 1, 1], [0, 1, 2, 3, 4]] [9, 8, 7, 6, 5] [3, 4] 2 0
    (by intro c rows vals; simp)
    (by
      intro c rows vals k hk
      simp [List.getElem?_map, List.getElem?_range, hk])
    (by decide) (by decide) (by decide)]
  decide

/-! ## `logprob_MixtureRV`, scalar regime (claim C2)

The branch taken when there is exactly one index of rank 0.  The value is
expanded along the join axis before derivation and each component density
squeezed along it afterwards (when a constant join axis is present, i.e.
the stack came from a `Join` rather than a `MakeVector`); the result is the
sum over components of `ifelse(eq(index, i), comp_logp, zeros_like(...))`.
`lp` again stands for the external recursive `_logprob_helper`, and
`expandDims`/`squeeze` for the external tensor operations. -/

/-- The accumulation loop `logp_val = 0.0; for i, comp_rv in enumerate(...):
logp_val += ...`. -/
def scalarGo {Comp α : Type _} [AddMonoid α] (contrib : Nat → Comp → α) :
    List Comp → Nat → α → α
  | [], _, acc => acc
  | c :: cs, i, acc => scalarGo contrib cs (i + 1) (acc + contrib i c)

/-- The scalar regime of `logprob_MixtureRV`. -/
def logprob_MixtureRV_scalar {Comp V α : Type _} [AddMonoid α]
    (lp : Comp → V → α) (expandDims : Int → V → V) (squeeze : Int → α → α)
    (joinAxisVal : Option Int) (idx : Nat) (comps : List Comp) (value : V) : α :=
  let value := match joinAxisVal with
    | some j => expandDims j value
    | none => value
  scalarGo
    (fun i c =>
      let compLogp := lp c value
      let compLogp := match joinAxisVal with
        | some j => squeeze j compLogp
        | none => compLogp
      if idx = i then compLogp else 0)
    comps 0 0

theorem scalarGo_miss {Comp α : Type _} [AddMonoid α] (f : Nat → Comp → α) (idx : Nat) :
    ∀ (cs : List Comp) (i0 : Nat) (acc : α),
      (∀ j, j < cs.length → idx ≠ i0 + j) →
      scalarGo (fun i c => if idx = i then f i c else 0) cs i0 acc = acc
  | [], _, _, _ => rfl
  | c :: cs, i0, acc, hmiss => by
    rw [scalarGo, if_neg (by have := hmiss 0 (by simp); omega), add_zero]
    exact scalarGo_miss f idx cs (i0 + 1) acc
      (fun j hj => by have := hmiss (j + 1) (by simpa using Nat.succ_lt_succ hj); omega)

theorem scalarGo_hit {Comp α : Type _} [AddMonoid α] [Inhabited Comp]
    (f : Nat → Comp → α) (idx : Nat) :
    ∀ (cs : List Comp) (i0 : Nat) (acc : α),
      i0 ≤ idx → idx < i0 + cs.length →
      scalarGo (fun i c => if idx = i then f i c else 0) cs i0 acc =
        acc + f idx (cs.getD (idx - i0) default)
  | [], i0, acc, hle, hlt => by simp at hlt; omega
  | c :: cs, i0, acc, hle, hlt => by
    rcases Nat.eq_or_lt_of_le hle with heq | hlt0
    · rw [scalarGo, if_pos heq.symm, ← heq, Nat.sub_self, getD_cons_zero]
      exact scalarGo_miss f i0 cs (i0 + 1) (acc + f i0 c)
        (fun j hj => by omega)
    · rw [scalarGo, if_neg (by omega), add_zero]
      rw [scalarGo_hit f idx cs (i0 + 1) acc (by omega)
        (by simp at hlt; omega)]
      rw [show idx - i0 = (idx - (i0 + 1)) + 1 from by omega, getD_cons_succ]

/-- C2: in the scalar regime (a single rank-0 index), the log-density built
by `logprob_MixtureRV` is the sum over components `i` of
`ifelse(eq(index, i), density_i, 0)`, where `density_i` is the recursively
derived density of component `i` at the join-axis-expanded value, squeezed
along the join axis when a constant join axis is present; hence when the
index is a concrete value `idx < N`, the result is exactly the selected
component's density and every other component contributes zero. -/
theorem logprob_MixtureRV_scalar_selects {Comp V α : Type _} [AddMonoid α] [Inhabited Comp]
    (lp : Comp → V → α) (expandDims : Int → V → V) (squeeze : Int → α → α)
    (ja : Option Int) (idx : Nat) (comps : List Comp) (value : V)
    (hidx : idx < comps.length) :
    logprob_MixtureRV_scalar lp expandDims squeeze ja idx comps value =
      match ja with
      | some j => squeeze j (lp (comps.getD idx default) (expandDims j value))
      | none => lp (comps.getD idx default) value := by
  unfold logprob_MixtureRV_scalar
  cases ja with
  | none =>
    rw [scalarGo_hit (fun i c => lp c value) idx comps 0 0 (Nat.zero_le _)
      (by simpa using hidx)]
    rw [Nat.sub_zero, zero_add]
  | some j =>
    rw [scalarGo_hit (fun i c => squeeze j (lp c (expandDims j value))) idx comps 0 0
      (Nat.zero_le _) (by simpa using hidx)]
    rw [Nat.sub_zero, zero_add]

/-- Witness for `logprob_MixtureRV_scalar_selects`: a two-component scalar
mixture with constant join axis 0, index 1 selecting the second component. -/
theorem logprob_MixtureRV_scalar_selects_witness :
    (1 < ([7, 8] : List Int).length) ∧
      logprob_MixtureRV_scalar (fun (c : Int) (v : Int) => c * 10 + v)
          (fun j v => v + j) (fun j a => a - j) (some 0) 1 [7, 8] 5 = 85 := by
  refine ⟨by decide, ?_⟩
  rw [logprob_MixtureRV_scalar_selects (fun (c : Int) (v : Int) => c * 10 + v)
    (fun j v => v + j) (fun j a => a - j) (some 0) 1 [7, 8] 5 (by decide)]
  decide


/-! ## `logprob_switch_mixture` and `logprob_ifelse` (claim C4)

`logprob_switch_mixture` builds the elementwise
`switch(switch_cond, _logprob_helper(component_true, value),
_logprob_helper(component_false, value))`; `logprob_ifelse` builds the lazy
whole-tensor `ifelse(if_var, logps_then, logps_else)`.  The recursive
`_logprob_helper` is the external parameter `lp`. -/

/-- Elementwise `pt.switch` over flattened tensors. -/
def switchList {α : Type _} : List Bool → List α → List α → List α
  | c :: cs, x :: xs, y :: ys => (if c then x else y) :: switchList cs xs ys
  | _, _, _ => []

/-- `logprob_switch_mixture(op, values, switch_cond, component_true,
component_false)`. -/
def logprob_switch_mixture {Comp V α : Type _} (lp : Comp → V → List α)
    (switch_cond : List Bool) (component_true component_false : Comp) (value : V) :
    List α :=
  switchList switch_cond (lp component_true value) (lp component_false value)

/-- `logprob_ifelse(op, values, if_var, rv_then, rv_else)`: a single lazy
conditional select between the two branch densities. -/
def logprob_ifelse {Comp V α : Type _} (lp : Comp → V → α)
    (if_var : Bool) (rv_then rv_else : Comp) (value : V) : α :=
  if if_var then lp rv_then value else lp rv_else value

theorem switchList_all_true {α : Type _} :
    ∀ (n : Nat) (xs ys : List α), xs.length = n → ys.length = n →
      switchList (List.replicate n true) xs ys = xs
  | 0, [], _, _, _ => rfl
  | 0, x :: xs, _, hx, _ => by cases hx
  | n + 1, [], ys, hx, hy => by cases hx
  | n + 1, x :: xs, [], hx, hy => by cases hy
  | n + 1, x :: xs, y :: ys, hx, hy => by
    rw [List.replicate_succ, switchList, if_pos rfl,
      switchList_all_true n xs ys (by simpa using hx) (by simpa using hy)]

theorem switchList_all_false {α : Type _} :
    ∀ (n : Nat) (xs ys : List α), xs.length = n → ys.length = n →
      switchList (List.replicate n false) xs ys = ys
  | 0, _, [], _, _ => rfl
  | 0, _, y :: ys, _, hy => by cases hy
  | n + 1, [], ys, hx, hy => by cases hx
  | n + 1, x :: xs, [], hx, hy => by cases hy
  | n + 1, x :: xs, y :: ys, hx, hy => by
    rw [List.replicate_succ, switchList, if_neg (by simp),
      switchList_all_false n xs ys (by simpa using hx) (by simpa using hy)]

/-- C4: the density graphs of a measurable switch mixture and a measurable
single-output if-else are a single conditional select over the two
recursively-derived branch densities: for an all-true condition the derived
density equals the then-branch's density, for an all-false condition the
else-branch's, with no contribution from the other branch. -/
theorem logprob_switch_ifelse_branch_select {Comp V α : Type _}
    (lp : Comp → V → List α) (lpI : Comp → V → α)
    (component_true component_false : Comp) (value : V) (n : Nat)
    (hlt : (lp component_true value).length = n)
    (hlf : (lp component_false value).length = n) :
    (logprob_switch_mixture lp (List.replicate n true)
        component_true component_false value = lp component_true value) ∧
      (logprob_switch_mixture lp (List.replicate n false)
        component_true component_false value = lp component_false value) ∧
      (logprob_ifelse lpI true component_true component_false value =
        lpI component_true value) ∧
      (logprob_ifelse lpI false component_true component_false value =
        lpI component_false value) :=
  ⟨switchList_all_true n _ _ hlt hlf, switchList_all_false n _ _ hlt hlf, rfl, rfl⟩

/-- Witness for `logprob_switch_ifelse_branch_select` on concrete integer
densities of length 2. -/
theorem logprob_switch_ifelse_branch_select_witness :
    (((fun (c : Nat) (v : Nat) => [c + v, c * v]) 3 5).length = 2) ∧
      (((fun (c : Nat) (v : Nat) => [c + v, c * v]) 4 5).length = 2) ∧
      (logprob_switch_mixture (fun (c : Nat) (v : Nat) => [c + v, c * v])
          (List.replicate 2 true) 3 4 5 = [8, 15]) ∧
      (logprob_switch_mixture (fun (c : Nat) (v : Nat) => [c + v, c * v])
          (List.replicate 2 false) 3 4 5 = [9, 20]) ∧
      (logprob_ifelse (fun (c : Nat) (v : Nat) => c + v) true 3 4 5 = 8) ∧
      (logprob_ifelse (fun (c : Nat) (v : Nat) => c + v) false 3 4 5 = 9) := by
  obtain ⟨h1, h2, h3, h4⟩ := logprob_switch_ifelse_branch_select
    (fun (c : Nat) (v : Nat) => [c + v, c * v]) (fun (c : Nat) (v : Nat) => c + v)
    3 4 5 2 (by decide) (by decide)
  refine ⟨by decide, by decide, ?_, ?_, ?_, ?_⟩
  · rw [h1]
  · rw [h2]
  · rw [h3]
  · rw [h4]


/-! ## The index-mixture matcher `find_measurable_index_mixture`
(claims C5, C7, C10)

Graph variables are modelled with exactly the attributes the matcher
inspects: index arguments carry a dtype and a broadcastable pattern (or are
`SliceConstant`s), the indexed variable is a `MakeVector`, a `Join` with an
axis input, or something else, components carry the measurability tag and
may be wrapped in `PromisedValuedRV`, and the node records the subtensor
`Op` kind and its output's dtype/broadcastable pattern. -/

inductive MixDType where
  | int8 | int16 | int32 | int64
  | uint8 | uint16 | uint32 | uint64
  | boolD | float32 | float64
deriving DecidableEq, Repr

/-- `dtype.startswith("int")` (note: unsigned dtypes start with "uint"). -/
def dtypeStartsWithInt : MixDType → Bool
  | .int8 => true
  | .int16 => true
  | .int32 => true
  | .int64 => true
  | _ => false

structure TensorInfo where
  dtype : MixDType
  broadcastable : List Bool
deriving DecidableEq, Repr

/-- An index argument of a subtensor node: a `SliceConstant` or a tensor
variable (a scalar index is a rank-0 tensor). -/
inductive IdxArg where
  | sliceConstant : IdxArg
  | tensor : TensorInfo → IdxArg
deriving DecidableEq, Repr

/-- A graph variable that may serve as a mixture component, with its
measurability tag (whether its `Op` is a `MeasurableOp`). -/
structure RVVar where
  id : Nat
  measurable : Bool
deriving DecidableEq, Repr

/-- A component input of the concatenation, possibly wrapped in a
`PromisedValuedRV`. -/
inductive JoinedInput where
  | bare : RVVar → JoinedInput
  | promised : RVVar → JoinedInput
deriving DecidableEq, Repr

/-- `rv.owner.inputs[0] if isinstance(rv.owner.op, PromisedValuedRV) else rv`. -/
def unwrapPromised : JoinedInput → RVVar
  | .bare rv => rv
  | .promised rv => rv

/-- The join-axis input of a `Join`, as `constant_fold` with
`raise_not_constant=False` sees it: foldable to a constant, or left as a
symbolic variable. -/
inductive AxisExpr where
  | foldable : Int → AxisExpr
  | symbolic : Nat → AxisExpr
deriving DecidableEq, Repr

/-- The variable being indexed. -/
inductive JoinedVar where
  | makeVector : List JoinedInput → JoinedVar
  | join : AxisExpr → List JoinedInput → JoinedVar
  | other : Nat → JoinedVar
deriving DecidableEq, Repr

/-- The `join_axis` value produced by `get_stack_mixture_vars`: `NoneConst`
for a `MakeVector`, a `Constant` for a folded `Join` axis, or the symbolic
variable when folding failed. -/
inductive JoinAxisVal where
  | noneConst : JoinAxisVal
  | constant : Int → JoinAxisVal
  | symbolicVar : Nat → JoinAxisVal
deriving DecidableEq, Repr

/-- `isinstance(join_axis, NoneTypeT | Constant)`. -/
def isNoneOrConstant : JoinAxisVal → Bool
  | .noneConst => true
  | .constant _ => true
  | .symbolicVar _ => false

/-- The three subtensor `Op` classes the rewrite is registered on. -/
inductive SubtensorKind where
  | basic | advanced | advanced1
deriving DecidableEq, Repr

/-- `isinstance(node.op, AdvancedSubtensor | AdvancedSubtensor1)`. -/
def isAdvancedKind : SubtensorKind → Bool
  | .basic => false
  | .advanced => true
  | .advanced1 => true

structure SubtensorNode where
  kind : SubtensorKind
  indexed : JoinedVar
  indices : List IdxArg
  outDtype : MixDType
  outBroadcastable : List Bool
deriving DecidableEq, Repr

/-- `get_stack_mixture_vars`: extract the components and the join axis from
a concatenation, unwrapping `PromisedValuedRV` markers; `none` when the
indexed variable is not a `MakeVector` or `Join`. -/
def get_stack_mixture_vars : JoinedVar → Option (List RVVar × JoinAxisVal)
  | .makeVector ins => some (ins.map unwrapPromised, .noneConst)
  | .join ax ins =>
    some (ins.map unwrapPromised,
      match ax with
      | .foldable n => .constant n
      | .symbolic i => .symbolicVar i)
  | .other _ => none

/-- The repeated-index guard: an index with an integer dtype and at least
one non-broadcastable dimension (`sum(1 - b for b in broadcastable) > 0`),
`SliceConstant`s excluded. -/
def badIntIndex : IdxArg → Bool
  | .sliceConstant => false
  | .tensor info => dtypeStartsWithInt info.dtype && info.broadcastable.any (fun b => !b)

/-- `filter_measurable_variables`. -/
def filter_measurable_variables (rvs : List RVVar) : List RVVar :=
  rvs.filter (fun rv => rv.measurable)

/-- `set(a) == set(b)` on lists. -/
def eqAsSets {β : Type _} [BEq β] (a b : List β) : Bool :=
  a.all (fun x => b.contains x) && b.all (fun x => a.contains x)

/-- An input of the synthesized `MixtureRV` node. -/
inductive MixInput where
  | axisIn : JoinAxisVal → MixInput
  | idxIn : IdxArg → MixInput
  | compIn : RVVar → MixInput
deriving DecidableEq, Repr

/-- The `MixtureRV` placeholder node built by `make_node`: its `__props__`
and its positional inputs. -/
structure MixtureRVNode where
  indices_end_idx : Nat
  out_dtype : MixDType
  out_broadcastable : List Bool
  inputs : List MixInput
deriving DecidableEq, Repr

/-- `find_measurable_index_mixture`, returning the replacement `MixtureRV`
node or `none` (no match). -/
def find_measurable_index_mixture (node : SubtensorNode) : Option MixtureRVNode :=
  let mixing_indices := node.indices
  if isAdvancedKind node.kind && mixing_indices.any badIntIndex then
    none
  else
    match get_stack_mixture_vars node.indexed with
    | none => none
    | some (mixture_rvs, join_axis) =>
      if !isNoneOrConstant join_axis then none
      else if !eqAsSets (filter_measurable_variables mixture_rvs) mixture_rvs then none
      else
        some
          { indices_end_idx := 1 + mixing_indices.length
            out_dtype := node.outDtype
            out_broadcastable := node.outBroadcastable
            inputs := MixInput.axisIn join_axis ::
              (mixing_indices.map MixInput.idxIn ++ mixture_rvs.map MixInput.compIn) }


theorem eqAsSets_self_of_measurable (rvs : List RVVar)
    (h : ∀ rv ∈ rvs, rv.measurable = true) :
    eqAsSets (filter_measurable_variables rvs) rvs = true := by
  unfold eqAsSets filter_measurable_variables
  rw [List.filter_eq_self.mpr (by intro a ha; rw [h a ha])]
  rw [Bool.and_eq_true]
  constructor <;>
    · rw [List.all_eq_true]
      intro x hx
      rw [List.contains_iff_exists_mem_beq]
      exact ⟨x, hx, by simp⟩

theorem eqAsSets_filter_false {rvs : List RVVar} {rv : RVVar} (hmem : rv ∈ rvs)
    (hns : rv.measurable = false) :
    eqAsSets (filter_measurable_variables rvs) rvs = false := by
  rcases Bool.eq_false_or_eq_true (eqAsSets (filter_measurable_variables rvs) rvs) with h | h
  case inr => exact h
  case inl =>
    exfalso
    unfold eqAsSets at h
    rw [Bool.and_eq_true, List.all_eq_true, List.all_eq_true] at h
    have h2 := h.2 rv hmem
    rw [List.contains_iff_exists_mem_beq] at h2
    obtain ⟨b, hb, hbeq⟩ := h2
    rw [beq_iff_eq] at hbeq
    subst hbeq
    rcases List.mem_filter.mp hb with ⟨_, hmeas⟩
    rw [hns] at hmeas
    cases hmeas

/-- C5: `find_measurable_index_mixture` returns no match whenever any of its
preconditions fails: a non-scalar integer-array mixing index (on an advanced
subtensor node), a join axis that does not fold to a compile-time constant,
an indexed variable that is not a concatenation at all, or any stacked
component (after unwrapping `PromisedValuedRV`) without the measurability
tag. -/
theorem find_measurable_index_mixture_no_match (node : SubtensorNode) :
    (isAdvancedKind node.kind = true →
      (∃ info, IdxArg.tensor info ∈ node.indices ∧ dtypeStartsWithInt info.dtype = true ∧
        info.broadcastable.any (fun b => !b) = true) →
      find_measurable_index_mixture node = none) ∧
    (∀ i ins, node.indexed = JoinedVar.join (AxisExpr.symbolic i) ins →
      find_measurable_index_mixture node = none) ∧
    (∀ i, node.indexed = JoinedVar.other i →
      find_measurable_index_mixture node = none) ∧
    (∀ rvs ax rv, get_stack_mixture_vars node.indexed = some (rvs, ax) →
      rv ∈ rvs → rv.measurable = false →
      find_measurable_index_mixture node = none) := by
  refine ⟨?_, ?_, ?_, ?_⟩
  · intro hadv ⟨info, hmem, hdt, hbc⟩
    have hany : node.indices.any badIntIndex = true :=
      List.any_eq_true.mpr ⟨IdxArg.tensor info, hmem, by
        simp [badIntIndex, hdt, hbc]⟩
    unfold find_measurable_index_mixture
    rw [if_pos (by rw [hadv, hany]; rfl)]
  · intro i ins hindexed
    unfold find_measurable_index_mixture
    by_cases hg : (isAdvancedKind node.kind && node.indices.any badIntIndex) = true
    · rw [if_pos hg]
    · rw [if_neg hg, hindexed]
      simp [get_stack_mixture_vars, isNoneOrConstant]
  · intro i hindexed
    unfold find_measurable_index_mixture
    by_cases hg : (isAdvancedKind node.kind && node.indices.any badIntIndex) = true
    · rw [if_pos hg]
    · rw [if_neg hg, hindexed]
      rfl
  · intro rvs ax rv hstack hmem hns
    unfold find_measurable_index_mixture
    by_cases hg : (isAdvancedKind node.kind && node.indices.any badIntIndex) = true
    · rw [if_pos hg]
    · rw [if_neg hg, hstack]
      dsimp only
      by_cases hax : isNoneOrConstant ax = true
      · rw [if_neg (by rw [hax]; simp), if_pos (by rw [eqAsSets_filter_false hmem hns]; rfl)]
      · rw [if_pos (by rw [Bool.eq_false_iff.mpr hax]; rfl)]

/-- Witness for `find_measurable_index_mixture_no_match`: a concrete node
for each rejected precondition. -/
theorem find_measurable_index_mixture_no_match_witness :
    (find_measurable_index_mixture
      { kind := SubtensorKind.advanced
        indexed := JoinedVar.makeVector
          [JoinedInput.bare ⟨0, true⟩, JoinedInput.bare ⟨1, true⟩]
        indices := [IdxArg.tensor ⟨MixDType.int64, [false]⟩]
        outDtype := MixDType.float64
        outBroadcastable := [false] } = none) ∧
    (find_measurable_index_mixture
      { kind := SubtensorKind.basic
        indexed := JoinedVar.join (AxisExpr.symbolic 5)
          [JoinedInput.bare ⟨0, true⟩, JoinedInput.bare ⟨1, true⟩]
        indices := [IdxArg.tensor ⟨MixDType.int64, []⟩]
        outDtype := MixDType.float64
        outBroadcastable := [] } = none) ∧
    (find_measurable_index_mixture
      { kind := SubtensorKind.basic
        indexed := JoinedVar.other 3
        indices := [IdxArg.tensor ⟨MixDType.int64, []⟩]
        outDtype := MixDType.float64
        outBroadcastable := [] } = none) ∧
    (find_measurable_index_mixture
      { kind := SubtensorKind.basic
        indexed := JoinedVar.makeVector
          [JoinedInput.bare ⟨0, true⟩, JoinedInput.promised ⟨1, false⟩]
        indices := [IdxArg.tensor ⟨MixDType.int64, []⟩]
        outDtype := MixDType.float64
        outBroadcastable := [] } = none) := by
  refine ⟨?_, ?_, ?_, ?_⟩
  · exact (find_measurable_index_mixture_no_match _).1 (by decide)
      ⟨⟨MixDType.int64, [false]⟩, by decide, by decide, by decide⟩
  · exact (find_measurable_index_mixture_no_match _).2.1 5
      [JoinedInput.bare ⟨0, true⟩, JoinedInput.bare ⟨1, true⟩] rfl
  · exact (find_measurable_index_mixture_no_match _).2.2.1 3 rfl
  · exact (find_measurable_index_mixture_no_match _).2.2.2
      [⟨0, true⟩, ⟨1, false⟩] JoinAxisVal.noneConst ⟨1, false⟩ rfl (by decide) rfl


/-- C7 (amended): on a successful match the `MixtureRV` placeholder's
`indices_end_idx` equals 1 + the number of index arguments, its output
dtype and broadcastable pattern are copied from the original node's output,
and its inputs are positionally `[join-axis, *indices, *components]`; hence
`indices_end_idx ≥ 1` and the component count equals
total inputs − `indices_end_idx` (equivalently, total inputs − 1 − the
number of index arguments).  The original claim's arithmetic
`component count = total inputs − 1 − indices_end_idx` is off by one and is
refuted by `find_measurable_index_mixture_comp_count_counterexample`. -/
theorem find_measurable_index_mixture_node_shape (node : SubtensorNode)
    (r : MixtureRVNode) (h : find_measurable_index_mixture node = some r) :
    r.indices_end_idx = 1 + node.indices.length ∧
      r.out_dtype = node.outDtype ∧
      r.out_broadcastable = node.outBroadcastable ∧
      1 ≤ r.indices_end_idx ∧
      ∃ rvs ax, get_stack_mixture_vars node.indexed = some (rvs, ax) ∧
        r.inputs = MixInput.axisIn ax ::
          (node.indices.map MixInput.idxIn ++ rvs.map MixInput.compIn) ∧
        r.inputs.drop r.indices_end_idx = rvs.map MixInput.compIn ∧
        (r.inputs.drop r.indices_end_idx).length = r.inputs.length - r.indices_end_idx := by
  unfold find_measurable_index_mixture at h
  by_cases hg : (isAdvancedKind node.kind && node.indices.any badIntIndex) = true
  · rw [if_pos hg] at h
    cases h
  · rw [if_neg hg] at h
    cases hstack : get_stack_mixture_vars node.indexed with
    | none =>
      rw [hstack] at h
      cases h
    | some pr =>
      obtain ⟨rvs, ax⟩ := pr
      rw [hstack] at h
      dsimp only at h
      by_cases hax : (!isNoneOrConstant ax) = true
      · rw [if_pos hax] at h
        cases h
      · rw [if_neg hax] at h
        by_cases hmeas : (!eqAsSets (filter_measurable_variables rvs) rvs) = true
        · rw [if_pos hmeas] at h
          cases h
        · rw [if_neg hmeas] at h
          cases h
          refine ⟨rfl, rfl, rfl, Nat.le_add_right 1 node.indices.length, rvs, ax, rfl, rfl,
            ?_, ?_⟩
          · show (MixInput.axisIn ax ::
              (node.indices.map MixInput.idxIn ++ rvs.map MixInput.compIn)).drop
                (1 + node.indices.length) = rvs.map MixInput.compIn
            rw [show 1 + node.indices.length = node.indices.length + 1 from by omega,
              List.drop_succ_cons]
            rw [show node.indices.length = (node.indices.map MixInput.idxIn).length from
                by rw [List.length_map]]
            exact List.drop_left _ _
          · show ((MixInput.axisIn ax ::
                (node.indices.map MixInput.idxIn ++ rvs.map MixInput.compIn)).drop
                  (1 + node.indices.length)).length = _
            simp only [List.length_drop, List.length_cons, List.length_append,
              List.length_map]

/-- The input on which the original C7 arithmetic fails: a matched
two-component mixture with one scalar index. -/
def mixNodeC7 : SubtensorNode :=
  { kind := SubtensorKind.basic
    indexed := JoinedVar.makeVector [JoinedInput.bare ⟨0, true⟩, JoinedInput.bare ⟨1, true⟩]
    indices := [IdxArg.tensor ⟨MixDType.int64, []⟩]
    outDtype := MixDType.float64
    outBroadcastable := [] }

/-- The `MixtureRV` node `find_measurable_index_mixture` builds for
`mixNodeC7`. -/
def mixResultC7 : MixtureRVNode :=
  { indices_end_idx := 2
    out_dtype := MixDType.float64
    out_broadcastable := []
    inputs := [MixInput.axisIn JoinAxisVal.noneConst,
      MixInput.idxIn (IdxArg.tensor ⟨MixDType.int64, []⟩),
      MixInput.compIn ⟨0, true⟩, MixInput.compIn ⟨1, true⟩] }

/-- C7 counterexample: on this successful match the placeholder has 2
components, but `total inputs − 1 − indices_end_idx = 4 − 1 − 2 = 1`, so the
claimed arithmetic `component count = total inputs − 1 − index-count` (with
index-count defined as `indices_end_idx`) fails. -/
theorem find_measurable_index_mixture_comp_count_counterexample :
    find_measurable_index_mixture mixNodeC7 = some mixResultC7 ∧
      (mixResultC7.inputs.drop mixResultC7.indices_end_idx).length ≠
        mixResultC7.inputs.length - 1 - mixResultC7.indices_end_idx := by
  constructor
  · rfl
  · decide

/-- Witness for `find_measurable_index_mixture_node_shape` at `mixNodeC7`. -/
theorem find_measurable_index_mixture_node_shape_witness :
    find_measurable_index_mixture mixNodeC7 = some mixResultC7 ∧
      (mixResultC7.indices_end_idx = 1 + mixNodeC7.indices.length ∧
        mixResultC7.out_dtype = mixNodeC7.outDtype ∧
        mixResultC7.out_broadcastable = mixNodeC7.outBroadcastable ∧
        1 ≤ mixResultC7.indices_end_idx ∧
        ∃ rvs ax, get_stack_mixture_vars mixNodeC7.indexed = some (rvs, ax) ∧
          mixResultC7.inputs = MixInput.axisIn ax ::
            (mixNodeC7.indices.map MixInput.idxIn ++ rvs.map MixInput.compIn) ∧
          mixResultC7.inputs.drop mixResultC7.indices_end_idx = rvs.map MixInput.compIn ∧
          (mixResultC7.inputs.drop mixResultC7.indices_end_idx).length =
            mixResultC7.inputs.length - mixResultC7.indices_end_idx) :=
  ⟨rfl, find_measurable_index_mixture_node_shape mixNodeC7 mixResultC7 rfl⟩

/-- C10: the repeated-index guard rejects exactly the indices whose dtype
starts with "int" and which have at least one non-broadcastable dimension;
a `SliceConstant`, a boolean-dtype array of any shape, and an
all-broadcastable (scalar-like) integer index all pass, so advanced boolean
indexing into a stack of measurable components is still matched as a
mixture. -/
theorem advanced_int_guard_spec :
    (badIntIndex IdxArg.sliceConstant = false) ∧
      (∀ bc, badIntIndex (IdxArg.tensor ⟨MixDType.boolD, bc⟩) = false) ∧
      (∀ dt bc, bc.all (fun b => b) = true →
        badIntIndex (IdxArg.tensor ⟨dt, bc⟩) = false) ∧
      (∀ info, badIntIndex (IdxArg.tensor info) = true ↔
        (dtypeStartsWithInt info.dtype = true ∧
          info.broadcastable.any (fun b => !b) = true)) ∧
      (∀ node : SubtensorNode, isAdvancedKind node.kind = true →
        (∀ i ∈ node.indices, badIntIndex i = false) →
        (∃ ins, node.indexed = JoinedVar.makeVector ins ∧
          ∀ inp ∈ ins, (unwrapPromised inp).measurable = true) →
        (find_measurable_index_mixture node).isSome = true) := by
  refine ⟨rfl, ?_, ?_, ?_, ?_⟩
  · intro bc
    simp [badIntIndex, dtypeStartsWithInt]
  · intro dt bc hall
    have hany : (bc.any fun b => !b) = false := by
      rcases Bool.eq_false_or_eq_true (bc.any fun b => !b) with h | h
      · rw [List.any_eq_true] at h
        obtain ⟨b, hb, hnb⟩ := h
        rw [List.all_eq_true] at hall
        have := hall b hb
        rw [this] at hnb
        cases hnb
      · exact h
    simp [badIntIndex, hany]
  · intro info
    rw [show badIntIndex (IdxArg.tensor info)
        = (dtypeStartsWithInt info.dtype && info.broadcastable.any (fun b => !b)) from rfl,
      Bool.and_eq_true]
  · intro node hadv hpass ⟨ins, hmk, hmeas⟩
    unfold find_measurable_index_mixture
    have hany : node.indices.any badIntIndex = false := by
      rcases Bool.eq_false_or_eq_true (node.indices.any badIntIndex) with h | h
      · rw [List.any_eq_true] at h
        obtain ⟨i, hi, hbad⟩ := h
        rw [hpass i hi] at hbad
        cases hbad
      · exact h
    rw [if_neg (by rw [hany, Bool.and_false]; simp), hmk]
    dsimp only [get_stack_mixture_vars]
    rw [if_neg (by simp [isNoneOrConstant]),
      if_neg (by
        rw [eqAsSets_self_of_measurable (ins.map unwrapPromised)
          (by
            intro rv hrv
            obtain ⟨inp, hinp, rfl⟩ := List.mem_map.mp hrv
            exact hmeas inp hinp)]
        simp)]
    rfl

/-- Witness for `advanced_int_guard_spec`: advanced boolean indexing into a
stack of two measurable components is matched. -/
theorem advanced_int_guard_spec_witness :
    (isAdvancedKind SubtensorKind.advanced = true) ∧
      (find_measurable_index_mixture
        { kind := SubtensorKind.advanced
          indexed := JoinedVar.makeVector
            [JoinedInput.bare ⟨0, true⟩, JoinedInput.bare ⟨1, true⟩]
          indices := [IdxArg.tensor ⟨MixDType.boolD, [false]⟩]
          outDtype := MixDType.float64
          outBroadcastable := [false] }).isSome = true :=
  ⟨rfl, advanced_int_guard_spec.2.2.2.2
    { kind := SubtensorKind.advanced
      indexed := JoinedVar.makeVector
        [JoinedInput.bare ⟨0, true⟩, JoinedInput.bare ⟨1, true⟩]
      indices := [IdxArg.tensor ⟨MixDType.boolD, [false]⟩]
      outDtype := MixDType.float64
      outBroadcastable := [false] }
    (by decide) (by decide)
    ⟨[JoinedInput.bare ⟨0, true⟩, JoinedInput.bare ⟨1, true⟩], rfl, by decide⟩⟩


/-! ### The switch-mixture matcher (`find_measurable_switch_mixture`) -/

/-- A branch operand of a `switch` node: its identity, its broadcast
pattern, and whether it is measurable (carries the measurability tag). -/
structure BranchVar where
  id : Nat
  broadcastable : List Bool
  measurable : Bool
deriving DecidableEq, Repr

/-- The switch condition: its identity and whether
`check_potential_measurability` flags it. -/
structure CondVar where
  id : Nat
  potentiallyMeasurable : Bool
deriving DecidableEq, Repr

/-- A `switch` node as the rewrite sees it: whether its op is already a
`MeasurableOp`, its condition, its two branch operands, and the broadcast
pattern of its output. -/
structure SwitchNode where
  opIsMeasurable : Bool
  cond : CondVar
  compTrue : BranchVar
  compFalse : BranchVar
  outBroadcastable : List Bool
deriving DecidableEq, Repr

/-- The replacement `MeasurableSwitchMixture` node: same three inputs. -/
structure MeasurableSwitchNode where
  cond : CondVar
  compTrue : BranchVar
  compFalse : BranchVar
deriving DecidableEq, Repr

/-- `filter_measurable_variables` on branch operands. -/
def filter_measurable_branches (vs : List BranchVar) : List BranchVar :=
  vs.filter (fun v => v.measurable)

/-- `check_potential_measurability` on a list of variables. -/
def check_potential_measurability (vs : List CondVar) : Bool :=
  vs.any (fun v => v.potentiallyMeasurable)

/-- `find_measurable_switch_mixture`, mirroring the source's guard order:
already-measurable op, component-broadcast check, measurability of both
branches (as a set equality), and potential measurability of the
condition. -/
def find_measurable_switch_mixture (node : SwitchNode) : Option MeasurableSwitchNode :=
  if node.opIsMeasurable then none
  else
    let components := [node.compTrue, node.compFalse]
    if components.any (fun comp => comp.broadcastable != node.outBroadcastable) then none
    else if !eqAsSets (filter_measurable_branches components) components then none
    else if check_potential_measurability [node.cond] then none
    else some { cond := node.cond, compTrue := node.compTrue, compFalse := node.compFalse }

theorem eqAsSets_refl {β : Type _} [DecidableEq β] (a : List β) :
    eqAsSets a a = true := by
  unfold eqAsSets
  rw [Bool.and_eq_true]
  constructor <;>
    · rw [List.all_eq_true]
      intro x hx
      rw [List.contains_iff_exists_mem_beq]
      exact ⟨x, hx, by simp⟩

theorem eqAsSets_filter_false_of {β : Type _} [DecidableEq β] (p : β → Bool)
    {l : List β} {x : β} (hmem : x ∈ l) (hx : p x = false) :
    eqAsSets (l.filter p) l = false := by
  rcases Bool.eq_false_or_eq_true (eqAsSets (l.filter p) l) with h | h
  case inr => exact h
  case inl =>
    exfalso
    unfold eqAsSets at h
    rw [Bool.and_eq_true, List.all_eq_true, List.all_eq_true] at h
    have h2 := h.2 x hmem
    rw [List.contains_iff_exists_mem_beq] at h2
    obtain ⟨b, hb, hbeq⟩ := h2
    rw [beq_iff_eq] at hbeq
    subst hbeq
    rcases List.mem_filter.mp hb with ⟨_, hmeas⟩
    rw [hx] at hmeas
    cases hmeas

theorem eqAsSets_filter_pair (t f : BranchVar) :
    eqAsSets (filter_measurable_branches [t, f]) [t, f]
      = (t.measurable && f.measurable) := by
  by_cases ht : t.measurable = true
  · by_cases hf : f.measurable = true
    · rw [ht, hf, Bool.and_self]
      show eqAsSets (List.filter (fun v => v.measurable) [t, f]) [t, f] = true
      rw [List.filter_eq_self.mpr (by
        intro a ha
        rcases List.mem_cons.mp ha with h | h
        · rw [h]; exact ht
        · rcases List.mem_cons.mp h with h | h
          · rw [h]; exact hf
          · cases h)]
      exact eqAsSets_refl _
    · rw [Bool.not_eq_true] at hf
      rw [hf, Bool.and_false]
      exact eqAsSets_filter_false_of (fun v => v.measurable)
        (show f ∈ [t, f] from by simp) hf
  · rw [Bool.not_eq_true] at ht
    rw [ht, Bool.false_and]
    exact eqAsSets_filter_false_of (fun v => v.measurable)
      (show t ∈ [t, f] from by simp) ht

/-- C6 (amended): `find_measurable_switch_mixture` matches exactly when the
node's op is NOT already measurable AND both branch operands' broadcast
patterns equal the output's AND both branches are measurable AND the
condition is not potentially measurable; the match is a single measurable
switch node with the same three inputs (condition, true-branch,
false-branch).  The original claim omitted the already-measurable guard and
is refuted by `find_measurable_switch_mixture_measurable_op_counterexample`. -/
theorem find_measurable_switch_mixture_spec (node : SwitchNode) :
    find_measurable_switch_mixture node =
      if node.opIsMeasurable = false ∧
          node.compTrue.broadcastable = node.outBroadcastable ∧
          node.compFalse.broadcastable = node.outBroadcastable ∧
          node.compTrue.measurable = true ∧
          node.compFalse.measurable = true ∧
          node.cond.potentiallyMeasurable = false then
        some { cond := node.cond, compTrue := node.compTrue, compFalse := node.compFalse }
      else none := by
  by_cases h1 : node.opIsMeasurable = true <;>
    by_cases h2 : node.compTrue.broadcastable = node.outBroadcastable <;>
      by_cases h3 : node.compFalse.broadcastable = node.outBroadcastable <;>
        by_cases h4 : node.compTrue.measurable = true <;>
          by_cases h5 : node.compFalse.measurable = true <;>
            by_cases h6 : node.cond.potentiallyMeasurable = true <;>
              simp_all [find_measurable_switch_mixture, check_potential_measurability,
                eqAsSets_filter_pair]

/-- A switch whose op is already a `MeasurableSwitchMixture`: well-typed
branches, both measurable, non-measurable condition. -/
def switchNodeC6 : SwitchNode :=
  { opIsMeasurable := true
    cond := ⟨0, false⟩
    compTrue := ⟨1, [false], true⟩
    compFalse := ⟨2, [false], true⟩
    outBroadcastable := [false] }

/-- C6 counterexample: `switchNodeC6` satisfies all three conditions of the
original claim (branch broadcast patterns identical to the output's, both
branches measurable, condition not potentially measurable), yet the rewrite
returns no match because the node's op is already a `MeasurableOp`. -/
theorem find_measurable_switch_mixture_measurable_op_counterexample :
    (switchNodeC6.compTrue.broadcastable = switchNodeC6.outBroadcastable ∧
        switchNodeC6.compFalse.broadcastable = switchNodeC6.outBroadcastable ∧
        switchNodeC6.compTrue.measurable = true ∧
        switchNodeC6.compFalse.measurable = true ∧
        switchNodeC6.cond.potentiallyMeasurable = false) ∧
      find_measurable_switch_mixture switchNodeC6 = none := by
  constructor
  · decide
  · rfl

/-- Witness for `find_measurable_switch_mixture_spec` at a concrete matching
node: the match is returned with the same three inputs. -/
theorem find_measurable_switch_mixture_spec_witness :
    find_measurable_switch_mixture
        { opIsMeasurable := false
          cond := ⟨0, false⟩
          compTrue := ⟨1, [false], true⟩
          compFalse := ⟨2, [false], true⟩
          outBroadcastable := [false] } =
      some { cond := ⟨0, false⟩
             compTrue := ⟨1, [false], true⟩
             compFalse := ⟨2, [false], true⟩ } := by
  rw [find_measurable_switch_mixture_spec]
  decide


/-! ### The multi-output if-else splitter (`split_valued_ifelse`) -/

/-- Expressions standing for tensor variables of the graph: root variables,
op applications, lazy if-else outputs, and `valued_rv` markers. -/
inductive Exp where
  | var : Nat → Exp
  | app : Nat → Exp → Exp → Exp
  | ifelseE : Exp → Exp → Exp → Exp
  | valuedE : Exp → Exp → Exp
deriving DecidableEq, Repr

/-- All subexpressions of an expression, the expression itself included
(pytensor `ancestors` is inclusive). -/
def subterms : Exp → List Exp
  | .var n => [.var n]
  | .app f a b => .app f a b :: (subterms a ++ subterms b)
  | .ifelseE c a b => .ifelseE c a b :: (subterms c ++ subterms a ++ subterms b)
  | .valuedE a v => .valuedE a v :: (subterms a ++ subterms v)

/-- `a.owner is not None`: every variable except a root variable is the
output of an apply node. -/
def hasOwner : Exp → Bool
  | .var _ => false
  | .app _ _ _ => true
  | .ifelseE _ _ _ => true
  | .valuedE _ _ => true

/-- `{a for a in ancestors((first_then, first_else)) if a.owner}`. -/
def ownedAncestors (t e : Exp) : List Exp :=
  (subterms t ++ subterms e).filter hasOwner

/-- The effect of `temp_fgraph.replace(first_then, dummy)`,
`temp_fgraph.replace(first_else, dummy)`,
`temp_fgraph.replace(dummy, first_valued_ifelse)`: graph replacement is by
variable identity, so the two branch variables are replaced simultaneously
(outermost occurrence first) by the same replacement expression. -/
def replaceBoth (fT fE repl : Exp) : Exp → Exp
  | e@(.var _) => if e = fT ∨ e = fE then repl else e
  | e@(.app f a b) =>
    if e = fT ∨ e = fE then repl
    else .app f (replaceBoth fT fE repl a) (replaceBoth fT fE repl b)
  | e@(.ifelseE c a b) =>
    if e = fT ∨ e = fE then repl
    else .ifelseE (replaceBoth fT fE repl c) (replaceBoth fT fE repl a)
      (replaceBoth fT fE repl b)
  | e@(.valuedE a v) =>
    if e = fT ∨ e = fE then repl
    else .valuedE (replaceBoth fT fE repl a) (replaceBoth fT fE repl v)

/-- Python `sorted` with an integer key: ascending and stable, which is
exactly `List.insertionSort` on `key a ≤ key b`. -/
def sortByKey {α : Type _} (key : α → Nat) (l : List α) : List α :=
  List.insertionSort (fun a b => key a ≤ key b) l

/-- A `ValuedRV` node related to one output of the multi-output if-else:
`rvIdx` is `node.outputs.index(rv)` (outputs are distinct variables, so the
index is the output's position), `value` its value variable, and
`valuedOut` the identity of its single output (the replacement key). -/
structure ValuedEntry where
  rvIdx : Nat
  value : Exp
  valuedOut : Nat
deriving DecidableEq, Repr

/-- A multi-output `IfElse` node: `n_outs` and its inputs
`cond :: then_outputs ++ else_outputs`. -/
structure IfElseNode where
  n_outs : Nat
  inputs : List Exp
deriving DecidableEq, Repr

/-- One tuple `(then_out, else_out, value, valued_out)` of
`then_else_valued_outputs`. -/
structure Tevo where
  thenO : Exp
  elseO : Exp
  value : Exp
  valuedOut : Nat
deriving DecidableEq, Repr

/-- The loop building `then_else_valued_outputs`: look up each valued
output's branch pair by its output index (`none` on an out-of-range index,
where the source would raise). -/
def buildTevos (t e : List Exp) : List ValuedEntry → Option (List Tevo)
  | [] => some []
  | v :: vs =>
    match t[v.rvIdx]?, e[v.rvIdx]? with
    | some tO, some eO =>
      match buildTevos t e vs with
      | some rest => some (⟨tO, eO, v.value, v.valuedOut⟩ :: rest)
      | none => none
    | _, _ => none

/-- `valued_rv(ifelse(cond, first_then, first_else), first_value_var)`. -/
def firstValuedIfElse (cond : Exp) (first : Tevo) : Exp :=
  Exp.valuedE (Exp.ifelseE cond first.thenO first.elseO) first.value

/-- One rebuilt valued if-else for a remaining valued output, after the
graph replacement of the first branch pair by the first valued if-else. -/
def substRemaining (cond : Exp) (first : Tevo) (r : Tevo) : Nat × Exp :=
  (r.valuedOut,
    Exp.valuedE
      (Exp.ifelseE
        (replaceBoth first.thenO first.elseO (firstValuedIfElse cond first) cond)
        (replaceBoth first.thenO first.elseO (firstValuedIfElse cond first) r.thenO)
        (replaceBoth first.thenO first.elseO (firstValuedIfElse cond first) r.elseO))
      r.value)

/-- `split_valued_ifelse`: `topo` gives each variable's owner position in
`fgraph.toposort()`; `valuedNodes` are the related valued output nodes; the
result is the `replacements` dict as an association list (or `none` for no
rewrite). -/
def split_valued_ifelse (topo : Exp → Nat) (node : IfElseNode)
    (valuedNodes : List ValuedEntry) : Option (List (Nat × Exp)) :=
  if node.n_outs == 1 then none
  else if valuedNodes.isEmpty then none
  else
    match node.inputs with
    | [] => none
    | cond :: all_outputs =>
      match buildTevos (all_outputs.take node.n_outs) (all_outputs.drop node.n_outs)
          valuedNodes with
      | none => none
      | some tevos =>
        match sortByKey (fun x => max (topo x.thenO) (topo x.elseO)) tevos with
        | [] => none
        | first :: remaining_vars =>
          if remaining_vars.isEmpty then
            some [(first.valuedOut, firstValuedIfElse cond first)]
          else if (remaining_vars.map Tevo.thenO ++ remaining_vars.map Tevo.elseO).any
              (fun v => (ownedAncestors first.thenO first.elseO).contains v) then
            none
          else
            some ((first.valuedOut, firstValuedIfElse cond first) ::
              remaining_vars.map (substRemaining cond first))

theorem buildTevos_length (t e : List Exp) :
    ∀ (vs : List ValuedEntry) (l : List Tevo), buildTevos t e vs = some l →
      l.length = vs.length := by
  intro vs
  induction vs with
  | nil =>
    intro l h
    cases h
    rfl
  | cons v vs ih =>
    intro l h
    unfold buildTevos at h
    cases ht : t[v.rvIdx]? with
    | none =>
      rw [ht] at h
      dsimp only at h
      cases h
    | some tO =>
      cases he : e[v.rvIdx]? with
      | none =>
        rw [ht, he] at h
        dsimp only at h
        cases h
      | some eO =>
        rw [ht, he] at h
        dsimp only at h
        cases hb : buildTevos t e vs with
        | none =>
          rw [hb] at h
          cases h
        | some rest =>
          rw [hb] at h
          cases h
          simp only [List.length_cons, ih rest hb]

theorem sortByKey_length {α : Type _} (key : α → Nat) (l : List α) :
    (sortByKey key l).length = l.length :=
  (List.perm_insertionSort (fun a b => key a ≤ key b) l).length_eq

theorem sortByKey_head_min {α : Type _} (key : α → Nat) (l : List α) (y : α)
    (ys : List α) (h : sortByKey key l = y :: ys) :
    ∀ a ∈ l, key y ≤ key a := by
  haveI : IsTotal α (fun a b => key a ≤ key b) := ⟨fun a b => Nat.le_total _ _⟩
  haveI : IsTrans α (fun a b => key a ≤ key b) :=
    ⟨fun a b c hab hbc => Nat.le_trans hab hbc⟩
  intro a ha
  have hperm := List.perm_insertionSort (fun a b => key a ≤ key b) l
  have hmem : a ∈ sortByKey key l := hperm.mem_iff.mpr ha
  rw [h] at hmem
  rcases List.mem_cons.mp hmem with rfl | hmem
  · exact Nat.le_refl _
  · have hsorted := List.sorted_insertionSort (fun a b => key a ≤ key b) l
    rw [show List.insertionSort (fun a b => key a ≤ key b) l = sortByKey key l from rfl,
      h] at hsorted
    exact List.rel_of_sorted_cons hsorted a hmem

/-- C8: on a multi-output if-else with at least two valued outputs whose
tuples are all well-indexed, sorted so that `first` has the earliest
(maximal-owner) topological position, and with no ancestor overlap, the
splitter returns exactly one standalone single-output valued if-else for
`first` plus the rebuilt valued if-elses of the remaining outputs, in which
every occurrence of the extracted branch pair (in the condition and the
remaining branches) is substituted by the first valued if-else's output;
and `first`'s sort key is minimal among all tuples. -/
theorem split_valued_ifelse_splits (topo : Exp → Nat) (node : IfElseNode)
    (valuedNodes : List ValuedEntry) (cond : Exp) (allOuts : List Exp)
    (tevos : List Tevo) (first : Tevo) (remaining : List Tevo)
    (h2 : 2 ≤ node.n_outs) (hvn : 2 ≤ valuedNodes.length)
    (hinp : node.inputs = cond :: allOuts)
    (htv : buildTevos (allOuts.take node.n_outs) (allOuts.drop node.n_outs) valuedNodes
      = some tevos)
    (hsort : sortByKey (fun x => max (topo x.thenO) (topo x.elseO)) tevos
      = first :: remaining)
    (hnov : ((remaining.map Tevo.thenO ++ remaining.map Tevo.elseO).any
      (fun v => (ownedAncestors first.thenO first.elseO).contains v)) = false) :
    remaining ≠ [] ∧
      split_valued_ifelse topo node valuedNodes =
        some ((first.valuedOut, firstValuedIfElse cond first) ::
          remaining.map (substRemaining cond first)) ∧
      ∀ x ∈ tevos,
        max (topo first.thenO) (topo first.elseO) ≤ max (topo x.thenO) (topo x.elseO) := by
  have hbl := buildTevos_length _ _ _ _ htv
  have hsl := sortByKey_length (fun x => max (topo x.thenO) (topo x.elseO)) tevos
  rw [hsort] at hsl
  have hrem : remaining ≠ [] := by
    intro hc
    subst hc
    simp only [List.length_cons, List.length_nil] at hsl
    omega
  refine ⟨hrem, ?_, ?_⟩
  · unfold split_valued_ifelse
    rw [if_neg (by
      intro hc
      rw [beq_iff_eq] at hc
      omega)]
    rw [if_neg (by
      intro hc
      rw [List.isEmpty_iff] at hc
      subst hc
      simp at hvn)]
    rw [hinp]
    dsimp only
    rw [htv]
    dsimp only
    rw [hsort]
    dsimp only
    rw [if_neg (by
      intro hc
      rw [List.isEmpty_iff] at hc
      exact hrem hc)]
    rw [if_neg (by
      rw [hnov]
      exact Bool.false_ne_true)]
  · exact fun x hx =>
      sortByKey_head_min (fun x => max (topo x.thenO) (topo x.elseO)) tevos
        first remaining hsort x hx

/-- C9: when the remaining valued outputs' then/else branch variables
intersect the owned-ancestor set of the first extracted branch pair, the
splitter abstains (returns no rewrite). -/
theorem split_valued_ifelse_overlap_abstains (topo : Exp → Nat) (node : IfElseNode)
    (valuedNodes : List ValuedEntry) (cond : Exp) (allOuts : List Exp)
    (tevos : List Tevo) (first : Tevo) (remaining : List Tevo)
    (h2 : 2 ≤ node.n_outs) (hvn : 2 ≤ valuedNodes.length)
    (hinp : node.inputs = cond :: allOuts)
    (htv : buildTevos (allOuts.take node.n_outs) (allOuts.drop node.n_outs) valuedNodes
      = some tevos)
    (hsort : sortByKey (fun x => max (topo x.thenO) (topo x.elseO)) tevos
      = first :: remaining)
    (hov : ((remaining.map Tevo.thenO ++ remaining.map Tevo.elseO).any
      (fun v => (ownedAncestors first.thenO first.elseO).contains v)) = true) :
    split_valued_ifelse topo node valuedNodes = none := by
  have hbl := buildTevos_length _ _ _ _ htv
  have hsl := sortByKey_length (fun x => max (topo x.thenO) (topo x.elseO)) tevos
  rw [hsort] at hsl
  have hrem : remaining ≠ [] := by
    intro hc
    subst hc
    simp only [List.length_cons, List.length_nil] at hsl
    omega
  unfold split_valued_ifelse
  rw [if_neg (by
    intro hc
    rw [beq_iff_eq] at hc
    omega)]
  rw [if_neg (by
    intro hc
    rw [List.isEmpty_iff] at hc
    subst hc
    simp at hvn)]
  rw [hinp]
  dsimp only
  rw [htv]
  dsimp only
  rw [hsort]
  dsimp only
  rw [if_neg (by
    intro hc
    rw [List.isEmpty_iff] at hc
    exact hrem hc)]
  rw [if_pos hov]

/-- Toposort positions for the C8 witness graph: a root variable's owner
position is its id. -/
def topoC8 : Exp → Nat
  | .var n => n
  | .app _ _ _ => 0
  | .ifelseE _ _ _ => 0
  | .valuedE _ _ => 0

/-- The C8 witness node: 2 outputs, inputs `[cond, then0, then1, else0, else1]`. -/
def nodeC8 : IfElseNode :=
  ⟨2, [Exp.var 0, Exp.var 5, Exp.var 3, Exp.var 6, Exp.var 4]⟩

/-- The two valued outputs of the C8 witness. -/
def valuedC8 : List ValuedEntry := [⟨0, Exp.var 20, 100⟩, ⟨1, Exp.var 21, 101⟩]

/-- The branch tuples of the C8 witness, in valued-node order. -/
def tevosC8 : List Tevo :=
  [⟨Exp.var 5, Exp.var 6, Exp.var 20, 100⟩, ⟨Exp.var 3, Exp.var 4, Exp.var 21, 101⟩]

/-- Witness for `split_valued_ifelse_splits`: the second valued output has
the earlier branch pair (key 4 < 6), is extracted first, and the other is
rebuilt. -/
theorem split_valued_ifelse_splits_witness :
    ([⟨Exp.var 5, Exp.var 6, Exp.var 20, 100⟩] : List Tevo) ≠ [] ∧
      split_valued_ifelse topoC8 nodeC8 valuedC8 =
        some ((101, firstValuedIfElse (Exp.var 0) ⟨Exp.var 3, Exp.var 4, Exp.var 21, 101⟩) ::
          List.map (substRemaining (Exp.var 0) ⟨Exp.var 3, Exp.var 4, Exp.var 21, 101⟩)
            [⟨Exp.var 5, Exp.var 6, Exp.var 20, 100⟩]) ∧
      ∀ x ∈ tevosC8,
        max (topoC8 (Exp.var 3)) (topoC8 (Exp.var 4)) ≤
          max (topoC8 x.thenO) (topoC8 x.elseO) :=
  split_valued_ifelse_splits topoC8 nodeC8 valuedC8 (Exp.var 0)
    [Exp.var 5, Exp.var 3, Exp.var 6, Exp.var 4] tevosC8
    ⟨Exp.var 3, Exp.var 4, Exp.var 21, 101⟩ [⟨Exp.var 5, Exp.var 6, Exp.var 20, 100⟩]
    (by decide) (by decide) rfl rfl rfl rfl

/-- The C9 witness node: the second output's then-branch is an ancestor of
the first output's then-branch. -/
def nodeC9 : IfElseNode :=
  ⟨2, [Exp.var 0,
    Exp.app 7 (Exp.app 9 (Exp.var 1) (Exp.var 1)) (Exp.var 2),
    Exp.app 9 (Exp.var 1) (Exp.var 1),
    Exp.var 8, Exp.var 8]⟩

/-- The two valued outputs of the C9 witness. -/
def valuedC9 : List ValuedEntry := [⟨0, Exp.var 20, 100⟩, ⟨1, Exp.var 21, 101⟩]

/-- The branch tuples of the C9 witness. -/
def tevosC9 : List Tevo :=
  [⟨Exp.app 7 (Exp.app 9 (Exp.var 1) (Exp.var 1)) (Exp.var 2), Exp.var 8, Exp.var 20, 100⟩,
    ⟨Exp.app 9 (Exp.var 1) (Exp.var 1), Exp.var 8, Exp.var 21, 101⟩]

/-- Witness for `split_valued_ifelse_overlap_abstains`: the remaining
then-branch occurs inside the first extracted then-branch, so the splitter
abstains. -/
theorem split_valued_ifelse_overlap_abstains_witness :
    split_valued_ifelse (fun _ => 0) nodeC9 valuedC9 = none :=
  split_valued_ifelse_overlap_abstains (fun _ => 0) nodeC9 valuedC9 (Exp.var 0)
    [Exp.app 7 (Exp.app 9 (Exp.var 1) (Exp.var 1)) (Exp.var 2),
      Exp.app 9 (Exp.var 1) (Exp.var 1), Exp.var 8, Exp.var 8] tevosC9
    ⟨Exp.app 7 (Exp.app 9 (Exp.var 1) (Exp.var 1)) (Exp.var 2), Exp.var 8, Exp.var 20, 100⟩
    [⟨Exp.app 9 (Exp.var 1) (Exp.var 1), Exp.var 8, Exp.var 21, 101⟩]
    (by decide) (by decide) rfl rfl rfl rfl

end Mixture
